import Mathlib

/-!
Verification of the django-datalog inference and query engine.

This file gives a shallow embedding, in Lean 4, of the core of the
django-datalog repository (facts, variables, rules, the forward-chaining
rule engine, the targeted fact-corpus supplier, the conjunctive solver with
deferred cross-variable constraint validation, and the query optimizer),
together with theorems settling the specification claims about it.

Conventions of the embedding:
- Entities handed out by the store are `Value.obj pk` (an object carrying a
  primary key); plain scalars / raw keys are `Value.raw k`.  The Python
  idiom `getattr(x, "pk", x)` becomes `Value.key`.
- Python dicts of variable bindings become association lists
  (`List (String × Value)`), looked up with `List.lookup`.
- Django `Q` objects become the tree type `QNode`; a `Q`'s `children` list
  holds either `(field, value)` lookup tuples or nested `Q`s.
- The entity store is a list of rows `(relation type, subject pk, object pk)`;
  predicate evaluation against stored entities (`evaluate_predicate` of the
  spec's Entity Store collaborator) is an abstract parameter `qSat`.
-/

namespace DjangoDatalog

/-! ## Values and facts (facts.py) -/

/-- A runtime value held in a fact position: either an entity object carrying a
primary key, or a raw key / scalar. -/
inductive Value where
  | obj (pk : Nat)
  | raw (k : Nat)
deriving DecidableEq

/-- The key of a value: `getattr(x, "pk", x)` — an entity's primary key, or the
raw value itself. -/
def Value.key : Value → Nat
  | .obj pk => pk
  | .raw k => k

/-- Whether a value is an entity object (has a `pk` attribute). -/
def Value.isObj : Value → Bool
  | .obj _ => true
  | .raw _ => false

/-- A concrete fact: a typed binary tuple.  `ftype` is the fact class
(relation type); subject and object are concrete values. -/
structure Fact where
  ftype : String
  subject : Value
  object : Value
deriving DecidableEq

/-- Fact equality, from `Fact.__eq__`: same fact type, and subject keys and
object keys agree (`getattr(x, "pk", x)` on both sides). -/
def factEq (self other : Fact) : Bool :=
  self.ftype == other.ftype
    && self.subject.key == other.subject.key
    && self.object.key == other.object.key

/-- A hash for strings (stands in for Python's opaque string/type hash). -/
def strHash (s : String) : Nat :=
  s.foldl (fun a c => a * 31 + c.toNat) 7

/-- Fact hash, from `Fact.__hash__`: a function of the triple
`(type(self), subject_key, object_key)` only. -/
def factHash (f : Fact) : Nat :=
  Nat.pair (strHash f.ftype) (Nat.pair f.subject.key f.object.key)

/-- Python's `fact in fact_list` membership test, which uses `Fact.__eq__`. -/
def memFact (f : Fact) (l : List Fact) : Bool :=
  l.any fun g => factEq g f

/-! ## Q objects and variables (variables.py) -/

mutual

/-- A value appearing in a `Q` lookup: a scalar, a `Var` reference, a list or
a tuple of such values. -/
inductive QVal where
  | scalar (n : Nat)
  | qvar (name : String)
  | vlist (xs : QValList)
  | vtup (xs : QValList)
deriving DecidableEq

/-- A list of `QVal`s (inlined so recursion over `Q` trees is structural). -/
inductive QValList where
  | nil
  | cons (head : QVal) (tail : QValList)
deriving DecidableEq

end

mutual

/-- A Django `Q` object tree.  A `child` of a `Q` is either a `(field, value)`
lookup tuple or a nested `Q`; a `Q` itself carries a connector and a negation
flag and a list of children. -/
inductive QNode where
  | lookup (field : String) (value : QVal)
  | node (connector : String) (negated : Bool) (children : QChildren)
deriving DecidableEq

/-- A list of `Q` children (inlined for structural recursion). -/
inductive QChildren where
  | nil
  | cons (c : QNode) (t : QChildren)
deriving DecidableEq

end

mutual

/-- From `_value_has_variables`: whether a lookup value contains `Var`
instances, recursing into lists and tuples. -/
def valueHasVariables : QVal → Bool
  | .scalar _ => false
  | .qvar _ => true
  | .vlist xs => valueListHasVariables xs
  | .vtup xs => valueListHasVariables xs

/-- Auxiliary list recursion for `valueHasVariables` (`any(...)` in source). -/
def valueListHasVariables : QValList → Bool
  | .nil => false
  | .cons x xs => valueHasVariables x || valueListHasVariables xs

end

mutual

/-- From `has_variable_references`: whether a `Q` object contains references to
`Var` instances.  A non-`Q` argument (no `children` attribute) yields `false`;
tuple children are checked via `valueHasVariables`, `Q` children recursively. -/
def hasVariableReferences : QNode → Bool
  | .lookup _ _ => false
  | .node _ _ children => childrenHaveVariables children

/-- Auxiliary recursion over a `Q`'s children for `hasVariableReferences`. -/
def childrenHaveVariables : QChildren → Bool
  | .nil => false
  | .cons (.lookup _ v) t => valueHasVariables v || childrenHaveVariables t
  | .cons (.node cn ng ch) t =>
      hasVariableReferences (.node cn ng ch) || childrenHaveVariables t

end

/-- A variable substitution for `Q` rewriting: maps variable names to values. -/
abbrev QSubst := List (String × QVal)

mutual

/-- From `_substitute_value_recursively`: replace `Var`s in a lookup value
using the substitution map, recursing into lists and tuples; unbound variables
are kept as-is, other values returned unchanged. -/
def substituteValueRecursively : QVal → QSubst → QVal
  | .scalar n, _ => .scalar n
  | .qvar x, subs =>
      match List.lookup x subs with
      | some w => w
      | none => .qvar x
  | .vlist xs, subs => .vlist (substituteValueList xs subs)
  | .vtup xs, subs => .vtup (substituteValueList xs subs)

/-- Auxiliary list recursion for `substituteValueRecursively`. -/
def substituteValueList : QValList → QSubst → QValList
  | .nil, _ => .nil
  | .cons x xs, subs =>
      .cons (substituteValueRecursively x subs) (substituteValueList xs subs)

end

mutual

/-- From `substitute_variables_in_q`: rebuild a `Q` object with the same
connector and negation, substituting variables in tuple children's values and
recursing into nested `Q` children.  A non-`Q` argument is returned as-is. -/
def substituteVariablesInQ : QNode → QSubst → QNode
  | .lookup f v, _ => .lookup f v
  | .node connector negated children, subs =>
      .node connector negated (substituteInChildren children subs)

/-- Auxiliary recursion over children for `substituteVariablesInQ`. -/
def substituteInChildren : QChildren → QSubst → QChildren
  | .nil, _ => .nil
  | .cons (.lookup f v) t, subs =>
      .cons (.lookup f (substituteValueRecursively v subs)) (substituteInChildren t subs)
  | .cons (.node cn ng ch) t, subs =>
      .cons (substituteVariablesInQ (.node cn ng ch) subs) (substituteInChildren t subs)

end

mutual

/-- Variable names referenced in a lookup value (the name-collection part of
`_extract_variables_from_value`). -/
def valVars : QVal → List String
  | .scalar _ => []
  | .qvar x => [x]
  | .vlist xs => valListVars xs
  | .vtup xs => valListVars xs

/-- Auxiliary list recursion for `valVars`. -/
def valListVars : QValList → List String
  | .nil => []
  | .cons x xs => valVars x ++ valListVars xs

end

mutual

/-- Variable names referenced anywhere in a `Q` object (the name-collection
part of `extract_variable_references`). -/
def qVars : QNode → List String
  | .lookup _ v => valVars v
  | .node _ _ children => childrenVars children

/-- Auxiliary recursion over children for `qVars`. -/
def childrenVars : QChildren → List String
  | .nil => []
  | .cons (.lookup _ v) t => valVars v ++ childrenVars t
  | .cons (.node cn ng ch) t => qVars (.node cn ng ch) ++ childrenVars t

end

mutual

/-- The connector/negation skeleton of a `Q` tree: every leaf value erased.
Two `Q`s with the same skeleton have the same connector and negation
structure. -/
def qSkeleton : QNode → QNode
  | .lookup _ _ => .lookup "" (.scalar 0)
  | .node connector negated children => .node connector negated (childrenSkeleton children)

/-- Auxiliary recursion over children for `qSkeleton`. -/
def childrenSkeleton : QChildren → QChildren
  | .nil => .nil
  | .cons (.lookup _ _) t => .cons (.lookup "" (.scalar 0)) (childrenSkeleton t)
  | .cons (.node cn ng ch) t => .cons (qSkeleton (.node cn ng ch)) (childrenSkeleton t)

end

mutual

/-- The leaf lookup values of a `Q` tree, in order. -/
def qLeaves : QNode → List QVal
  | .lookup _ v => [v]
  | .node _ _ children => childrenLeaves children

/-- Auxiliary recursion over children for `qLeaves`. -/
def childrenLeaves : QChildren → List QVal
  | .nil => []
  | .cons (.lookup _ v) t => v :: childrenLeaves t
  | .cons (.node cn ng ch) t => qLeaves (.node cn ng ch) ++ childrenLeaves t

end

/-! ## Variables, patterns and rules (variables.py, rules.py) -/

/-- A query variable (`Var` dataclass): a name and an optional `Q` constraint
(`where`). -/
structure Var where
  name : String
  whereQ : Option QNode
deriving DecidableEq

/-- A fact-pattern position: a concrete value or a `Var`. -/
inductive FTerm where
  | const (v : Value)
  | var (v : Var)
deriving DecidableEq

/-- A fact pattern: the fact type plus subject/object positions which may hold
variables.  (In the source, patterns are `Fact` instances whose positions may
hold `Var` objects; the embedding splits concrete facts and patterns into two
types.) -/
structure Pattern where
  ftype : String
  subject : FTerm
  object : FTerm
deriving DecidableEq

/-- An inference rule (`Rule` dataclass): head pattern and body, here a flat
conjunction of fact patterns (the `rule(head, *body)` form). -/
structure Rule where
  head : Pattern
  body : List Pattern
deriving DecidableEq

/-- Variable bindings: a map from variable names to values (a Python dict). -/
abbrev Bindings := List (String × Value)

/-! ## Rule evaluation (rules.py) -/

/-- From `_unify_facts`: unify a pattern fact against a concrete fact,
producing bindings or failure.  The subject is bound first; the object check
detects a conflicting binding when subject and object share a variable name.
`Var` constraints (`where`) are ignored here, exactly as in the source. -/
def unifyFacts (patternFact : Pattern) (concreteFact : Fact) : Option Bindings :=
  let afterSubject : Option Bindings :=
    match patternFact.subject with
    | .var v => some [(v.name, concreteFact.subject)]
    | .const c => if c = concreteFact.subject then some [] else none
  match afterSubject with
  | none => none
  | some bindings =>
    match patternFact.object with
    | .var v =>
        match List.lookup v.name bindings with
        | some prev =>
            if prev = concreteFact.object then some bindings else none
        | none => some (bindings ++ [(v.name, concreteFact.object)])
    | .const c => if c = concreteFact.object then some bindings else none

/-- From `_find_bindings_for_condition`: unify a condition against every known
fact of the same fact type, collecting the successful bindings. -/
def findBindingsForCondition (condition : Pattern) (knownFacts : List Fact) :
    List Bindings :=
  knownFacts.filterMap fun fact =>
    if fact.ftype == condition.ftype then unifyFacts condition fact else none

/-- Loop of `_merge_bindings`: fold the second dict's items into the first,
failing on a conflicting value for a shared variable. -/
def mergeBindingsAux : Bindings → List (String × Value) → Option Bindings
  | acc, [] => some acc
  | acc, (k, v) :: rest =>
      match List.lookup k acc with
      | some v2 => if v2 = v then mergeBindingsAux acc rest else none
      | none => mergeBindingsAux (acc ++ [(k, v)]) rest

/-- From `_merge_bindings` (rules.py): merge two variable bindings, checking
for conflicts. -/
def mergeBindings (binding1 binding2 : Bindings) : Option Bindings :=
  mergeBindingsAux binding1 binding2

/-- From `_find_all_bindings`: all variable bindings satisfying a list of
conditions against the known facts, merging per-condition bindings and
dropping conflicting combinations. -/
def findAllBindings : List Pattern → List Fact → List Bindings
  | [], _ => [[]]
  | condition :: remaining, knownFacts =>
      let firstBindings := findBindingsForCondition condition knownFacts
      match remaining with
      | [] => firstBindings
      | r :: rs =>
          firstBindings.flatMap fun binding =>
            (findAllBindings (r :: rs) knownFacts).filterMap fun extBinding =>
              mergeBindings binding extBinding

/-- Instantiate one pattern position from bindings (`_instantiate_fact`'s
per-position logic): a constant stays, a variable must be bound. -/
def instantiateTerm (bindings : Bindings) : FTerm → Option Value
  | .const c => some c
  | .var v => List.lookup v.name bindings

/-- From `_instantiate_fact`: create a concrete fact from the head pattern by
substituting variables; `none` when a variable is unbound. -/
def instantiateFact (patternFact : Pattern) (bindings : Bindings) : Option Fact :=
  match instantiateTerm bindings patternFact.subject,
        instantiateTerm bindings patternFact.object with
  | some s, some o => some ⟨patternFact.ftype, s, o⟩
  | _, _ => none

/-- From `_apply_single_rule`: instantiate the rule head for every binding of
the body, keeping facts not already known and not already produced. -/
def applySingleRule (ruleObj : Rule) (knownFacts : List Fact) : List Fact :=
  (findAllBindings ruleObj.body knownFacts).foldl
    (fun newFacts bindings =>
      match instantiateFact ruleObj.head bindings with
      | none => newFacts
      | some newFact =>
          if ¬ memFact newFact knownFacts = true ∧ ¬ memFact newFact newFacts = true then
            newFacts ++ [newFact]
          else newFacts)
    []

/-- The inner loop of `apply_rules`: append each new fact not already present
(membership via `Fact.__eq__`), to the growing fact list. -/
def addNewFacts (allFacts : List Fact) (newFacts : List Fact) : List Fact :=
  newFacts.foldl (fun acc newFact => if memFact newFact acc then acc else acc ++ [newFact])
    allFacts

/-- One pass of the `apply_rules` while-loop: apply every registered rule in
order, each seeing the facts added by earlier rules in the same pass. -/
def onePass (rules : List Rule) (facts : List Fact) : List Fact :=
  rules.foldl (fun allFacts ruleObj => addNewFacts allFacts (applySingleRule ruleObj allFacts))
    facts

/-- The `apply_rules` while-loop, fuel-indexed: `fuel` is the number of
remaining iterations out of the cap of 100 (`max_iterations`); the loop stops
early when a pass adds no new facts (`changed` stays false). -/
def applyRulesLoop (rules : List Rule) : Nat → List Fact → List Fact
  | 0, allFacts => allFacts
  | fuel + 1, allFacts =>
      let next := onePass rules allFacts
      if next.length = allFacts.length then next
      else applyRulesLoop rules fuel next

/-- From `apply_rules`: forward-chain the registered rules over the base facts
to a fixpoint, capped at `max_iterations = 100` passes. -/
def applyRules (rules : List Rule) (baseFacts : List Fact) : List Fact :=
  applyRulesLoop rules 100 baseFacts

/-- The state after `k` full passes of the `apply_rules` loop (specification
device for counting iterations). -/
def passIter (rules : List Rule) (baseFacts : List Fact) : Nat → List Fact
  | 0 => baseFacts
  | k + 1 => onePass rules (passIter rules baseFacts k)

/-! ## Rule registration and scoped contexts (rules.py) -/

/-- From `rule` (rules.py as given in src): append a new rule to the registry
without validation. -/
def ruleAppend (registry : List Rule) (head : Pattern) (body : List Pattern) :
    List Rule :=
  registry ++ [⟨head, body⟩]

/-- Modelled from the spec: fact-flavor aware rule registration.  The
registering `rule` exposed by `django_datalog.models` is absent from src (the
src `rules.py` predates it; the repo's tests assert it raises on a storable
head).  Per the spec, registration fails immediately when the head's relation
type is not declared inferred or when the body is structurally empty, and the
rule is not added to the registry in that case. -/
def ruleRegister (isInferred : String → Bool) (registry : List Rule)
    (head : Pattern) (body : List Pattern) : Except String (List Rule) :=
  if isInferred head.ftype = false then
    .error "rule head fact type must be marked with inferred=True"
  else if body.isEmpty then
    .error "rule body must not be empty"
  else
    .ok (registry ++ [⟨head, body⟩])

/-- The body of a `with rule_context(...)` block: a computation that reads the
registry (possibly extended by `rule(...)` calls inside the block, hence it
returns a new registry), and either finishes normally with a result or raises. -/
abbrev ContextBody (α : Type) := List Rule → Except Unit (α × List Rule)

/-- The registration loop of `rule_context` for the rule definitions passed as
arguments: tuples of length ≥ 2 (head plus at least one body condition) are
registered via `rule(...)`. -/
def registerDefs (ruleDefinitions : List (Pattern × List Pattern))
    (registry : List Rule) : List Rule :=
  ruleDefinitions.foldl
    (fun acc rdef => if rdef.2.length ≥ 1 then ruleAppend acc rdef.1 rdef.2 else acc)
    registry

/-- From `rule_context`: snapshot the registry, register the rule definitions
passed as arguments, run the body, and on both normal and error exit clear the
registry and re-extend it with the snapshot. -/
def ruleContextRun (ruleDefinitions : List (Pattern × List Pattern)) {α : Type}
    (body : ContextBody α) (registry : List Rule) : Except Unit α × List Rule :=
  let originalRules := registry
  match body (registerDefs ruleDefinitions registry) with
  | .ok (a, _) => (.ok a, ([] : List Rule) ++ originalRules)
  | .error e => (.error e, ([] : List Rule) ++ originalRules)

/-! ## The entity store boundary

The store holds rows `(relation type, subject pk, object pk)`.  The
collaborator's predicate evaluation (`evaluate_predicate` in the spec;
`queryset.filter(q)` in the source) is abstracted as a parameter
`qSat : QNode → Nat → Bool` — whether the entity with the given primary key
satisfies a (variable-free) `Q` constraint — and row hydration success as
`dbHas : Nat → Bool`. -/

/-- A stored fact row: relation type name, subject primary key, object
primary key. -/
abbrev StoreRow := String × Nat × Nat

/-- The entity store contents for the binary fact relations. -/
abbrev Store := List StoreRow

/-- The facts materialized from the store rows (each position an entity
object, as `select_related` loading produces). -/
def storedFactList (store : Store) : List Fact :=
  store.map fun row => ⟨row.1, .obj row.2.1, .obj row.2.2⟩

/-! ## Query-side unification and constraint checking (query.py) -/

/-- From `_unify_bindings` (query.py): unify two sets of variable bindings,
failing on a conflicting value for a shared variable, otherwise accumulating
the new entries. -/
def unifyBindings (existing : Bindings) (new : Bindings) : Option Bindings :=
  new.foldl
    (fun acc p =>
      match acc with
      | none => none
      | some result =>
          match List.lookup p.1 result with
          | some v => if v = p.2 then some result else none
          | none => some (result ++ [(p.1, p.2)]))
    (some existing)

/-- From `_get_model_instance_from_binding`: a value that already is a model
instance is returned as-is; a raw primary key is hydrated when the store has
it, and kept as the raw key otherwise. -/
def getModelInstanceFromBinding (dbHas : Nat → Bool) (bindingValue : Value) : Value :=
  match bindingValue with
  | .obj pk => .obj pk
  | .raw k => if dbHas k then .obj k else .raw k

/-- From `_check_q_constraint_with_bindings`: substitute bound variables into a
constraint that has variable references; if references remain the check is
deferred (returns true); otherwise the resolved constraint is evaluated
against the instance via the store.  A non-entity instance makes the store
query raise, which the source treats as a failed check. -/
def checkQConstraintWithBindings (qSat : QNode → Nat → Bool) (modelInstance : Value)
    (qConstraint : QNode) (bindings : Bindings) : Bool :=
  let resolved? : Option QNode :=
    if hasVariableReferences qConstraint then
      let modelBindings : QSubst := bindings.map fun p => (p.1, QVal.scalar p.2.key)
      let resolved := substituteVariablesInQ qConstraint modelBindings
      if hasVariableReferences resolved then none else some resolved
    else some qConstraint
  match resolved? with
  | none => true
  | some resolved =>
      match modelInstance with
      | .obj pk => qSat resolved pk
      | .raw _ => false

/-- The binding value recorded for a matched position:
`x.pk if hasattr(x, "pk") else x` — always the plain key. -/
def toPkValue (v : Value) : Value :=
  .raw v.key

/-- From `_unify_fact_pattern` (query.py): unify a fact pattern against a
concrete fact under existing bindings.  Self-contained `Var` constraints are
checked immediately; cross-variable constraints are skipped when
`skipCrossVarConstraints` is set; binding the same variable name to two
different values fails. -/
def unifyFactPattern (qSat : QNode → Nat → Bool) (pattern : Pattern)
    (concreteFact : Fact) (existingBindings : Bindings)
    (skipCrossVarConstraints : Bool) : Option Bindings :=
  let subjectStep : Option Bindings :=
    match pattern.subject with
    | .var v =>
        let constraintOk :=
          match v.whereQ with
          | none => true
          | some w =>
              if skipCrossVarConstraints ∧ hasVariableReferences w = true then true
              else checkQConstraintWithBindings qSat concreteFact.subject w existingBindings
        if constraintOk then some [(v.name, toPkValue concreteFact.subject)] else none
    | .const c => if c = concreteFact.subject then some [] else none
  match subjectStep with
  | none => none
  | some substitution =>
    match pattern.object with
    | .var v =>
        let constraintOk :=
          match v.whereQ with
          | none => true
          | some w =>
              if skipCrossVarConstraints ∧ hasVariableReferences w = true then true
              else
                checkQConstraintWithBindings qSat concreteFact.object w
                  (substitution ++ existingBindings)
        if constraintOk then
          let objValue := toPkValue concreteFact.object
          match List.lookup v.name substitution with
          | some prev => if prev = objValue then some substitution else none
          | none => some (substitution ++ [(v.name, objValue)])
        else none
    | .const c => if c = concreteFact.object then some substitution else none

/-- From `_query_against_facts`: unify the pattern against every in-memory
fact of the same fact type, collecting the successful substitutions. -/
def queryAgainstFacts (qSat : QNode → Nat → Bool) (pattern : Pattern)
    (facts : List Fact) (existingBindings : Bindings)
    (skipCrossVarConstraints : Bool) : List Bindings :=
  facts.filterMap fun fact =>
    if fact.ftype == pattern.ftype then
      unifyFactPattern qSat pattern fact existingBindings skipCrossVarConstraints
    else none

/-! ## Targeted fact loading and the rule engine driver (query.py) -/

/-- The per-position row filter of `_fact_to_django_query`: a concrete value
filters by foreign-key equality; a variable with a self-contained constraint
filters through the store's predicate evaluation; a cross-variable constraint
is skipped at loading time. -/
def termRowFilter (qSat : QNode → Nat → Bool) (t : FTerm) (pk : Nat) : Bool :=
  match t with
  | .const c => c.key == pk
  | .var v =>
      match v.whereQ with
      | none => true
      | some w => if hasVariableReferences w then true else qSat w pk

/-- From `_load_stored_facts_for_pattern`: inferred fact types have no storage
and load nothing; otherwise the store rows of the pattern's type matching the
pattern's concrete positions and self-contained constraints are materialized
as facts with entity-object positions. -/
def loadStoredFactsForPattern (isInferred : String → Bool)
    (qSat : QNode → Nat → Bool) (store : Store) (pattern : Pattern) : List Fact :=
  if isInferred pattern.ftype then []
  else
    (store.filter fun row =>
        row.1 == pattern.ftype
          && termRowFilter qSat pattern.subject row.2.1
          && termRowFilter qSat pattern.object row.2.2).map
      fun row => ⟨row.1, .obj row.2.1, .obj row.2.2⟩

/-- From `_variable_in_pattern`: whether a variable name appears in a fact
pattern. -/
def varInPattern (varName : String) (pattern : Pattern) : Bool :=
  (match pattern.subject with
   | .var v => v.name == varName
   | .const _ => false)
  || (match pattern.object with
      | .var v => v.name == varName
      | .const _ => false)

/-- From `_create_targeted_condition`: replace each condition variable that
does not appear in the target pattern by a fresh hidden, unconstrained
variable.  (The source draws hidden names from `uuid4`; loading ignores
variable names, so the embedding uses a fixed hidden name.) -/
def createTargetedCondition (condition : Pattern) (targetPattern : Pattern) : Pattern :=
  { ftype := condition.ftype
    subject :=
      match condition.subject with
      | .var v =>
          if varInPattern v.name targetPattern then .var v
          else .var ⟨"hidden", none⟩
      | t => t
    object :=
      match condition.object with
      | .var v =>
          if varInPattern v.name targetPattern then .var v
          else .var ⟨"hidden", none⟩
      | t => t }

/-- The duplicate-removal loop of `_build_targeted_fact_base_for_rules`: the
`seen` set keys facts by `(type, subject, object)`, which for loaded entity
positions coincides with `Fact.__eq__`. -/
def dedupFacts (facts : List Fact) : List Fact :=
  facts.foldl (fun acc f => if memFact f acc then acc else acc ++ [f]) []

/-- From `_build_targeted_fact_base_for_rules`: for every rule body
condition, load the stored facts for its targeted version, then deduplicate. -/
def buildTargetedFactBase (isInferred : String → Bool) (qSat : QNode → Nat → Bool)
    (store : Store) (rules : List Rule) (targetPattern : Pattern) : List Fact :=
  dedupFacts
    (rules.flatMap fun r =>
      r.body.flatMap fun condition =>
        loadStoredFactsForPattern isInferred qSat store
          (createTargetedCondition condition targetPattern))

/-- Modelled from the spec: `apply_targeted_rules` is imported by `query.py`
from `rules.py` but is absent from the src snapshot (the src `rules.py`
predates it).  Per the spec (§4.4) and the import site's comment ("reuse
existing rule system"), it forward-chains the given rules over the given
targeted fact base to a fixpoint under the same bounded iteration cap. -/
def applyTargetedRules (rules : List Rule) (targetedFacts : List Fact) : List Fact :=
  applyRules rules targetedFacts

/-- From `_apply_rules_with_hidden_variables`: build the targeted fact base,
apply the given rules over it, and keep only facts of the target type. -/
def applyRulesWithHiddenVariables (isInferred : String → Bool)
    (qSat : QNode → Nat → Bool) (store : Store) (rules : List Rule)
    (targetPattern : Pattern) : List Fact :=
  let targetedFacts := buildTargetedFactBase isInferred qSat store rules targetPattern
  let inferredFacts := applyTargetedRules rules targetedFacts
  inferredFacts.filter fun f => f.ftype == targetPattern.ftype

/-- From `_get_facts_for_pattern`: stored facts matching the pattern, plus —
when some registered rule's head type equals the pattern's type — the facts
inferred by those rules over the targeted fact base. -/
def getFactsForPattern (isInferred : String → Bool) (qSat : QNode → Nat → Bool)
    (store : Store) (rules : List Rule) (pattern : Pattern) : List Fact :=
  let storedFacts := loadStoredFactsForPattern isInferred qSat store pattern
  let relevantRules := rules.filter fun r => r.head.ftype == pattern.ftype
  if relevantRules.isEmpty then storedFacts
  else
    storedFacts
      ++ applyRulesWithHiddenVariables isInferred qSat store relevantRules pattern

/-! ## Deferred cross-variable validation and the conjunctive solver
(query.py) -/

/-- The collection pass of `_validate_cross_variable_constraints`: the
variables (subject side first, then object side, per condition) carrying a
constraint with variable references. -/
def crossVarOccurrences (conditions : List Pattern) : List Var :=
  conditions.flatMap fun condition =>
    (match condition.subject with
     | .var v =>
         match v.whereQ with
         | some w => if hasVariableReferences w then [v] else []
         | none => []
     | .const _ => [])
    ++ (match condition.object with
        | .var v =>
            match v.whereQ with
            | some w => if hasVariableReferences w then [v] else []
            | none => []
        | .const _ => [])

/-- From `_validate_cross_variable_constraints`: after a full conjunction is
satisfied, every collected cross-variable constraint whose variable is bound
must pass `_check_q_constraint_with_bindings` against the (re-hydrated) bound
instance. -/
def validateCrossVariableConstraints (qSat : QNode → Nat → Bool)
    (dbHas : Nat → Bool) (conditions : List Pattern) (bindings : Bindings) : Bool :=
  (crossVarOccurrences conditions).all fun v =>
    match List.lookup v.name bindings, v.whereQ with
    | some bv, some w =>
        checkQConstraintWithBindings qSat
          (getModelInstanceFromBinding dbHas bv) w bindings
    | _, _ => true

/-- From `_satisfy_conjunction_with_targeted_facts` (the recursive solver; the
automatic-ORM-conversion shortcut, which the spec places outside the core and
declares non-authoritative, is not part of the solver semantics): when all
conditions are consumed, emit the bindings only if the deferred cross-variable
validation passes; otherwise unify the first condition against its targeted
fact corpus with cross-variable constraints skipped, merge the resulting
bindings, and recurse. -/
def satisfyConjunction (isInferred : String → Bool) (qSat : QNode → Nat → Bool)
    (dbHas : Nat → Bool) (store : Store) (rules : List Rule) :
    List Pattern → Bindings → List Pattern → List Bindings
  | [], bindings, originalConditions =>
      if validateCrossVariableConstraints qSat dbHas originalConditions bindings then
        [bindings]
      else []
  | condition :: remaining, bindings, originalConditions =>
      let relevantFacts := getFactsForPattern isInferred qSat store rules condition
      (queryAgainstFacts qSat condition relevantFacts bindings true).flatMap fun result =>
        match unifyBindings bindings result with
        | none => []
        | some newBindings =>
            satisfyConjunction isInferred qSat dbHas store rules remaining newBindings
              originalConditions

/-! ## Storing facts (facts.py; flavor validation modelled from the spec) -/

/-- From `bulk_create(..., ignore_conflicts=True)` with
`unique_together (subject, object)`: inserting an already present row is a
no-op. -/
def bulkInsert (store : Store) (rows : List StoreRow) : Store :=
  rows.foldl (fun acc row => if acc.contains row then acc else acc ++ [row]) store

/-- Modelled from the spec: the flavor check of `store_facts`.  The
inferred-flavor flag and the store-time validation live in
`django_datalog/models.py`, which is absent from the src snapshot (the src
`facts.py` predates the inferred flavor; `query.py` and the repo's tests
reference `_is_inferred`).  Per the spec, persisting an inferred-flavor fact
is an error raised immediately, before any storage write is attempted;
otherwise the facts are bulk-inserted with ignore-conflict semantics. -/
def storeFactsOp (isInferred : String → Bool) (facts : List Fact) (store : Store) :
    Except String Store :=
  if facts.any (fun f => isInferred f.ftype) then
    .error "Cannot store inferred fact"
  else
    .ok (bulkInsert store (facts.map fun f => (f.ftype, f.subject.key, f.object.key)))

/-! ## Query optimization (optimizer.py) -/

/-- Append a constraint to a variable's collected list (the
`defaultdict(list)` update in `_collect_constraints_by_variable`). -/
def assocAppendQ (acc : List (String × List QNode)) (name : String) (w : QNode) :
    List (String × List QNode) :=
  match acc with
  | [] => [(name, [w])]
  | (n, ws) :: rest =>
      if n == name then (n, ws ++ [w]) :: rest
      else (n, ws) :: assocAppendQ rest name w

/-- The variables of a fact pattern, subject first (from
`_extract_variables`). -/
def extractVariables (pattern : Pattern) : List Var :=
  (match pattern.subject with
   | .var v => [v]
   | .const _ => [])
  ++ (match pattern.object with
      | .var v => [v]
      | .const _ => [])

/-- From `_collect_constraints_by_variable`: collect, per variable name, every
attached constraint that does not reference other variables. -/
def collectConstraintsByVariable (factPatterns : List Pattern) :
    List (String × List QNode) :=
  factPatterns.foldl
    (fun acc pattern =>
      (extractVariables pattern).foldl
        (fun acc2 v =>
          match v.whereQ with
          | some w => if hasVariableReferences w then acc2 else assocAppendQ acc2 v.name w
          | none => acc2)
        acc)
    []

/-- Django's `Q.__and__`: a fresh `Q` with connector `AND` over the two
operands. -/
def qAnd (a b : QNode) : QNode :=
  .node "AND" false (.cons a (.cons b .nil))

/-- From `_merge_variable_constraints`: a single constraint is kept as-is;
several are AND-combined by `reduce`. -/
def mergeVariableConstraints (collected : List (String × List QNode)) :
    List (String × QNode) :=
  collected.filterMap fun p =>
    match p.2 with
    | [] => none
    | w :: ws => some (p.1, ws.foldl qAnd w)

/-- From `_update_variable_constraint`: a variable whose name has a merged
constraint is rebuilt carrying it; everything else is untouched. -/
def updateVariableConstraint (t : FTerm) (merged : List (String × QNode)) : FTerm :=
  match t with
  | .var v =>
      match List.lookup v.name merged with
      | some w => .var ⟨v.name, some w⟩
      | none => .var v
  | .const c => .const c

/-- From `_apply_merged_constraints` / `_update_pattern_constraints`: rewrite
every pattern, position-wise, with the merged constraints. -/
def applyMergedConstraints (factPatterns : List Pattern)
    (merged : List (String × QNode)) : List Pattern :=
  factPatterns.map fun pattern =>
    { ftype := pattern.ftype
      subject := updateVariableConstraint pattern.subject merged
      object := updateVariableConstraint pattern.object merged }

/-- From `optimize_query` / `ConstraintPropagator.propagate_constraints`:
collect, merge, and apply constraints across same-named variables.  This is
the whole of `optimize_query` in the source: it performs no reordering. -/
def optimizeQuery (factPatterns : List Pattern) : List Pattern :=
  applyMergedConstraints factPatterns
    (mergeVariableConstraints (collectConstraintsByVariable factPatterns))

/-! ## List-extension helpers (the loops above only append) -/

/-- `Grows l l2`: `l2` is `l` with some suffix appended. -/
def Grows {α : Type} (l l2 : List α) : Prop :=
  ∃ t, l2 = l ++ t

theorem grows_refl {α : Type} (l : List α) : Grows l l :=
  ⟨[], by simp⟩

theorem grows_trans {α : Type} {l1 l2 l3 : List α} (h1 : Grows l1 l2)
    (h2 : Grows l2 l3) : Grows l1 l3 := by
  obtain ⟨t1, rfl⟩ := h1
  obtain ⟨t2, rfl⟩ := h2
  exact ⟨t1 ++ t2, by simp⟩

theorem grows_length_le {α : Type} {l l2 : List α} (h : Grows l l2) :
    l.length ≤ l2.length := by
  obtain ⟨t, rfl⟩ := h
  simp

theorem grows_eq_of_length {α : Type} {l l2 : List α} (h : Grows l l2)
    (hl : l2.length = l.length) : l2 = l := by
  obtain ⟨t, rfl⟩ := h
  have ht : t = [] := by simpa using hl
  simp [ht]

theorem mem_of_grows {α : Type} {l l2 : List α} {a : α} (h : Grows l l2)
    (ha : a ∈ l) : a ∈ l2 := by
  obtain ⟨t, rfl⟩ := h
  exact List.mem_append_left t ha

theorem grows_foldl {α β : Type} (step : List α → β → List α)
    (hstep : ∀ acc x, Grows acc (step acc x)) :
    ∀ (xs : List β) (acc : List α), Grows acc (xs.foldl step acc) := by
  intro xs
  induction xs with
  | nil => intro acc; exact grows_refl acc
  | cons x xs ih =>
      intro acc
      exact grows_trans (hstep acc x) (ih (step acc x))

theorem grows_addNewFacts (allFacts newFacts : List Fact) :
    Grows allFacts (addNewFacts allFacts newFacts) := by
  unfold addNewFacts
  refine grows_foldl _ (fun acc nf => ?_) newFacts allFacts
  by_cases h : memFact nf acc
  · simp [h]; exact grows_refl acc
  · simp [h]; exact ⟨[nf], rfl⟩

theorem grows_onePass (rules : List Rule) (facts : List Fact) :
    Grows facts (onePass rules facts) := by
  unfold onePass
  exact grows_foldl _ (fun acc r => grows_addNewFacts acc _) rules facts

theorem grows_applyRulesLoop (rules : List Rule) :
    ∀ (fuel : Nat) (facts : List Fact), Grows facts (applyRulesLoop rules fuel facts) := by
  intro fuel
  induction fuel with
  | zero => intro facts; exact grows_refl facts
  | succ n ih =>
      intro facts
      show Grows facts (applyRulesLoop rules (n + 1) facts)
      unfold applyRulesLoop
      by_cases h : (onePass rules facts).length = facts.length
      · simp only [h, if_pos rfl]
        exact grows_onePass rules facts
      · simp only [if_neg h]
        exact grows_trans (grows_onePass rules facts) (ih (onePass rules facts))

/-! ## C9: fact equality and hashing -/

/-- C9: fact equality and hashing are determined exactly by the triple
(relation type, subject key, object key): two facts of the same type whose
subject keys and object keys agree (entity object or raw key alike) are equal
with equal hashes, and facts differing in type or in either key are unequal. -/
theorem c9_fact_identity_by_key_triple :
    (∀ (t : String) (s1 o1 s2 o2 : Value),
        s1.key = s2.key → o1.key = o2.key →
        factEq ⟨t, s1, o1⟩ ⟨t, s2, o2⟩ = true ∧
          factHash ⟨t, s1, o1⟩ = factHash ⟨t, s2, o2⟩) ∧
    (∀ f g : Fact,
        f.ftype ≠ g.ftype ∨ f.subject.key ≠ g.subject.key ∨
            f.object.key ≠ g.object.key →
        factEq f g = false) := by
  constructor
  · intro t s1 o1 s2 o2 h1 h2
    constructor
    · simp [factEq, h1, h2]
    · simp [factHash, h1, h2]
  · intro f g h
    rcases h with h | h | h <;> simp [factEq, h]

/-- C9 witness: an entity object and its raw key are interchangeable for fact
identity, and a type difference breaks equality. -/
theorem c9_witness :
    (factEq ⟨"ParentOf", .obj 3, .raw 4⟩ ⟨"ParentOf", .raw 3, .obj 4⟩ = true ∧
      factHash ⟨"ParentOf", .obj 3, .raw 4⟩ = factHash ⟨"ParentOf", .raw 3, .obj 4⟩) ∧
    factEq ⟨"ParentOf", .obj 3, .raw 4⟩ ⟨"MemberOf", .obj 3, .raw 4⟩ = false := by
  constructor
  · exact c9_fact_identity_by_key_triple.1 "ParentOf" (.obj 3) (.raw 4) (.raw 3) (.obj 4)
      (by decide) (by decide)
  · exact c9_fact_identity_by_key_triple.2 ⟨"ParentOf", .obj 3, .raw 4⟩
      ⟨"MemberOf", .obj 3, .raw 4⟩ (Or.inl (by decide))

/-! ## C2: rule-registration validation -/

/-- C2 (spec-modelled registration): registering a rule whose head fact type
is of storable (non-inferred) flavor, or whose body is structurally empty,
fails immediately with a validation error, and no rule is added to the
registry (no `ok` registry is produced). -/
theorem c2_rule_registration_validation
    (isInferred : String → Bool) (registry : List Rule) (head : Pattern)
    (body : List Pattern)
    (h : isInferred head.ftype = false ∨ body = []) :
    (∃ msg, ruleRegister isInferred registry head body = .error msg) ∧
    ∀ registry2, ruleRegister isInferred registry head body ≠ .ok registry2 := by
  have herr : ∃ msg, ruleRegister isInferred registry head body = .error msg := by
    rcases h with h | h
    · exact ⟨"rule head fact type must be marked with inferred=True",
        by simp [ruleRegister, h]⟩
    · subst h
      by_cases hflag : isInferred head.ftype = false
      · exact ⟨"rule head fact type must be marked with inferred=True",
          by simp [ruleRegister, hflag]⟩
      · exact ⟨"rule body must not be empty", by simp [ruleRegister, hflag]⟩
  refine ⟨herr, ?_⟩
  intro registry2 hok
  obtain ⟨msg, hmsg⟩ := herr
  rw [hmsg] at hok
  exact Except.noConfusion hok

/-- C2 witness: registering a rule with a storable-flavor head errors, and the
empty-body case errors as well. -/
theorem c2_witness :
    (∃ msg,
        ruleRegister (fun _ => false) []
          ⟨"ParentOf", .var ⟨"x", none⟩, .var ⟨"y", none⟩⟩
          [⟨"ParentOf", .var ⟨"x", none⟩, .var ⟨"y", none⟩⟩] = .error msg) ∧
    (∃ msg,
        ruleRegister (fun _ => true) []
          ⟨"Inferred", .var ⟨"x", none⟩, .var ⟨"y", none⟩⟩ [] = .error msg) := by
  constructor
  · exact (c2_rule_registration_validation (fun _ => false) []
      ⟨"ParentOf", .var ⟨"x", none⟩, .var ⟨"y", none⟩⟩
      [⟨"ParentOf", .var ⟨"x", none⟩, .var ⟨"y", none⟩⟩] (Or.inl rfl)).1
  · exact (c2_rule_registration_validation (fun _ => true) []
      ⟨"Inferred", .var ⟨"x", none⟩, .var ⟨"y", none⟩⟩ [] (Or.inr rfl)).1

/-! ## C3: storing an inferred fact is an immediate error -/

/-- C3 (spec-modelled flavor check): for every fact of an inferred-flavor fact
type, `store_facts` fails immediately with an error and produces no updated
store — persisting an inferred fact is never attempted. -/
theorem c3_store_inferred_fact_errors
    (isInferred : String → Bool) (facts : List Fact) (store : Store) (f : Fact)
    (hf : f ∈ facts) (hinf : isInferred f.ftype = true) :
    (∃ msg, storeFactsOp isInferred facts store = .error msg) ∧
    ∀ store2, storeFactsOp isInferred facts store ≠ .ok store2 := by
  have hany : facts.any (fun g => isInferred g.ftype) = true :=
    List.any_eq_true.mpr ⟨f, hf, hinf⟩
  constructor
  · exact ⟨"Cannot store inferred fact", by simp [storeFactsOp, hany]⟩
  · intro store2 hok
    simp [storeFactsOp, hany] at hok

/-- C3 witness: storing one inferred-flavor fact errors. -/
theorem c3_witness :
    ∃ msg,
      storeFactsOp (fun t => t == "HasAccess") [⟨"HasAccess", .obj 1, .obj 2⟩] []
        = .error msg :=
  (c3_store_inferred_fact_errors (fun t => t == "HasAccess")
    [⟨"HasAccess", .obj 1, .obj 2⟩] [] ⟨"HasAccess", .obj 1, .obj 2⟩
    (by simp) (by decide)).1

/-! ## C6: rule_context restores the registry on every exit -/

/-- C6: on every exit from a `rule_context` scope — normal or by exception —
the registry is restored exactly to its pre-context snapshot (hence same rules
and same count), and scopes compose: the registry seen inside a scope extends
the outer one (outer rules remain registered), and an inner scope entered from
any outer-scope registry (outer context rules plus rules added dynamically
inside the outer scope) restores exactly that outer-scope registry on exit. -/
theorem c6_rule_context_restores_registry :
    ∀ {α β : Type} (defs1 defs2 : List (Pattern × List Pattern))
      (body1 : ContextBody α) (body2 : ContextBody β)
      (registry : List Rule) (dynamicRules : List Rule),
      (ruleContextRun defs1 body1 registry).2 = registry ∧
      (ruleContextRun defs1 body1 registry).2.length = registry.length ∧
      Grows registry (registerDefs defs1 registry) ∧
      (ruleContextRun defs2 body2 (registerDefs defs1 registry ++ dynamicRules)).2
        = registerDefs defs1 registry ++ dynamicRules := by
  intro α β defs1 defs2 body1 body2 registry dynamicRules
  have hrestore : ∀ {γ : Type} (defs : List (Pattern × List Pattern))
      (body : ContextBody γ) (reg : List Rule), (ruleContextRun defs body reg).2 = reg := by
    intro γ defs body reg
    unfold ruleContextRun
    cases body (registerDefs defs reg) with
    | ok a => simp
    | error e => simp
  refine ⟨hrestore defs1 body1 registry, by rw [hrestore defs1 body1 registry], ?_, ?_⟩
  · unfold registerDefs
    refine grows_foldl _ (fun acc rdef => ?_) defs1 registry
    by_cases h : rdef.2.length ≥ 1
    · simp only [if_pos h]; exact ⟨[⟨rdef.1, rdef.2⟩], rfl⟩
    · simp only [if_neg h]; exact grows_refl acc
  · exact hrestore defs2 body2 _

/-! ## C4: optimize_query performs no selectivity reordering -/

/-- Whether a pattern carries a self-contained (non-cross-variable) constraint
on some position — the spec's most-selective class. -/
def patternHasSelfContainedConstraint (pattern : Pattern) : Bool :=
  (extractVariables pattern).any fun v =>
    match v.whereQ with
    | some w => !hasVariableReferences w
    | none => false

/-- The unconstrained pattern of the C4 failing input (`WorksFor(emp, company)`
with no constraints). -/
def c4PatternUnconstrained : Pattern :=
  ⟨"WorksFor", .var ⟨"emp", none⟩, .var ⟨"company", none⟩⟩

/-- The constrained pattern of the C4 failing input
(`MemberOf(emp2 where is_manager=True, dept)`). -/
def c4PatternConstrained : Pattern :=
  ⟨"MemberOf",
    .var ⟨"emp2", some (.node "AND" false (.cons (.lookup "is_manager" (.scalar 1)) .nil))⟩,
    .var ⟨"dept", none⟩⟩

/-- C4: at the failing input `[unconstrained; constrained]`, `optimize_query`
returns the patterns in their original order — the pattern with a
self-contained constraint does not precede the pattern with no constraint on
either position, contradicting the claimed execution-planner reordering (which
the repo's own optimizer tests assert). -/
theorem c4_optimize_query_keeps_input_order :
    optimizeQuery [c4PatternUnconstrained, c4PatternConstrained]
        = [c4PatternUnconstrained, c4PatternConstrained] ∧
      patternHasSelfContainedConstraint c4PatternUnconstrained = false ∧
      patternHasSelfContainedConstraint c4PatternConstrained = true := by
  refine ⟨?_, by decide, by decide⟩
  decide

/-! ## C7: termination of the forward-chaining loop -/

theorem passIter_shift (rules : List Rule) (base : List Fact) :
    ∀ k, passIter rules (onePass rules base) k = passIter rules base (k + 1) := by
  intro k
  induction k with
  | zero => rfl
  | succ n ih =>
      show onePass rules (passIter rules (onePass rules base) n)
          = onePass rules (passIter rules base (n + 1))
      rw [ih]

theorem applyRulesLoop_spec (rules : List Rule) :
    ∀ (fuel : Nat) (facts : List Fact),
      ∃ k, k ≤ fuel ∧
        applyRulesLoop rules fuel facts = passIter rules facts k ∧
        (∀ j, j < k →
          (passIter rules facts (j + 1)).length ≠ (passIter rules facts j).length) ∧
        (k < fuel → onePass rules (passIter rules facts k) = passIter rules facts k) := by
  intro fuel
  induction fuel with
  | zero =>
      intro facts
      exact ⟨0, Nat.le_refl 0, rfl, fun j hj => absurd hj (Nat.not_lt_zero j),
        fun h => absurd h (Nat.lt_irrefl 0)⟩
  | succ n ih =>
      intro facts
      by_cases h : (onePass rules facts).length = facts.length
      · have heq : onePass rules facts = facts :=
          grows_eq_of_length (grows_onePass rules facts) h
        refine ⟨0, Nat.zero_le _, ?_, fun j hj => absurd hj (Nat.not_lt_zero j),
          fun _ => heq⟩
        show applyRulesLoop rules (n + 1) facts = facts
        unfold applyRulesLoop
        simp [h, heq]
      · obtain ⟨k, hk, heq, hchanges, hfix⟩ := ih (onePass rules facts)
        refine ⟨k + 1, Nat.succ_le_succ hk, ?_, ?_, ?_⟩
        · show applyRulesLoop rules (n + 1) facts = passIter rules facts (k + 1)
          unfold applyRulesLoop
          simp only [if_neg h]
          rw [heq, passIter_shift]
        · intro j hj
          cases j with
          | zero => exact h
          | succ m =>
              have hm : m < k := Nat.lt_of_succ_lt_succ hj
              have := hchanges m hm
              rwa [passIter_shift, passIter_shift] at this
        · intro hlt
          have hk2 : k < n := Nat.lt_of_succ_lt_succ hlt
          have := hfix hk2
          rwa [passIter_shift] at this

/-- C7: for every rule set and finite base-fact list, `apply_rules` reaches
its result in some number `k ≤ 100` of full passes (the iteration cap), every
pass before the last added at least one new fact (the loop stops as soon as a
full pass adds nothing), on an early stop the result is a fixpoint of a pass,
and the returned list always extends the base facts (cap exhaustion returns
the facts derived so far instead of failing). -/
theorem c7_apply_rules_terminates (rules : List Rule) (baseFacts : List Fact) :
    ∃ k, k ≤ 100 ∧
      applyRules rules baseFacts = passIter rules baseFacts k ∧
      Grows baseFacts (applyRules rules baseFacts) ∧
      (∀ j, j < k →
        (passIter rules baseFacts (j + 1)).length ≠ (passIter rules baseFacts j).length) ∧
      (k < 100 →
        onePass rules (passIter rules baseFacts k) = passIter rules baseFacts k) := by
  obtain ⟨k, hk, heq, hchanges, hfix⟩ := applyRulesLoop_spec rules 100 baseFacts
  exact ⟨k, hk, heq, grows_applyRulesLoop rules 100 baseFacts, hchanges, hfix⟩

/-- C7 witness: the loop bound at a concrete input (one rule deriving a
grandparent fact from two parent facts). -/
theorem c7_witness :
    ∃ k, k ≤ 100 ∧
      applyRules
          [⟨⟨"GrandparentOf", .var ⟨"g", none⟩, .var ⟨"c", none⟩⟩,
            [⟨"ParentOf", .var ⟨"g", none⟩, .var ⟨"p", none⟩⟩,
             ⟨"ParentOf", .var ⟨"p", none⟩, .var ⟨"c", none⟩⟩]⟩]
          [⟨"ParentOf", .obj 1, .obj 2⟩, ⟨"ParentOf", .obj 2, .obj 3⟩]
        = passIter
            [⟨⟨"GrandparentOf", .var ⟨"g", none⟩, .var ⟨"c", none⟩⟩,
              [⟨"ParentOf", .var ⟨"g", none⟩, .var ⟨"p", none⟩⟩,
               ⟨"ParentOf", .var ⟨"p", none⟩, .var ⟨"c", none⟩⟩]⟩]
            [⟨"ParentOf", .obj 1, .obj 2⟩, ⟨"ParentOf", .obj 2, .obj 3⟩] k := by
  obtain ⟨k, hk, heq, _⟩ := c7_apply_rules_terminates
    [⟨⟨"GrandparentOf", .var ⟨"g", none⟩, .var ⟨"c", none⟩⟩,
      [⟨"ParentOf", .var ⟨"g", none⟩, .var ⟨"p", none⟩⟩,
       ⟨"ParentOf", .var ⟨"p", none⟩, .var ⟨"c", none⟩⟩]⟩]
    [⟨"ParentOf", .obj 1, .obj 2⟩, ⟨"ParentOf", .obj 2, .obj 3⟩]
  exact ⟨k, hk, heq⟩

/-! ## Association-list lemmas for bindings -/

theorem lookup_append_some {α : Type} [BEq α] {k : α} {v : Value}
    {l1 l2 : List (α × Value)} (h : List.lookup k l1 = some v) :
    List.lookup k (l1 ++ l2) = some v := by
  induction l1 with
  | nil => simp [List.lookup] at h
  | cons p t ih =>
      rcases p with ⟨a, b⟩
      simp only [List.lookup, List.cons_append] at h ⊢
      by_cases hk : (k == a) = true
      · simpa [hk] using h
      · simp only [hk] at h ⊢
        simp at hk
        simpa using ih h

theorem lookup_append_none {α : Type} [BEq α] {k : α}
    {l1 l2 : List (α × Value)} (h : List.lookup k l1 = none) :
    List.lookup k (l1 ++ l2) = List.lookup k l2 := by
  induction l1 with
  | nil => simp
  | cons p t ih =>
      rcases p with ⟨a, b⟩
      simp only [List.lookup, List.cons_append] at h ⊢
      by_cases hk : (k == a) = true
      · simp [hk] at h
      · simp only [hk] at h ⊢
        exact ih h

theorem lookup_none_of_not_mem_keys {k : String} {l : List (String × Value)}
    (h : k ∉ l.map Prod.fst) : List.lookup k l = none := by
  induction l with
  | nil => rfl
  | cons p t ih =>
      rcases p with ⟨a, b⟩
      simp only [List.map, List.mem_cons, not_or] at h
      simp only [List.lookup]
      have : (k == a) = false := by
        simp [h.1]
      simp only [this]
      exact ih h.2

theorem lookup_single_ne {k a : String} {v : Value} (h : k ≠ a) :
    List.lookup k [(a, v)] = none := by
  have hb : (k == a) = false := by simp [h]
  simp [List.lookup, hb]

/-- The `some` case of the merge loop: the merged dict looks up values from
the first dict, falling back to the second. -/
theorem mergeAux_some_lookup :
    ∀ (rest : List (String × Value)) (acc m : Bindings),
      mergeBindingsAux acc rest = some m → ∀ k,
        List.lookup k m =
          match List.lookup k acc with
          | some v => some v
          | none => List.lookup k rest := by
  intro rest
  induction rest with
  | nil =>
      intro acc m h k
      have hm : m = acc := by
        simp only [mergeBindingsAux, Option.some.injEq] at h
        exact h.symm
      rw [hm]
      cases hka : List.lookup k acc <;> simp [hka]
  | cons p rest ih =>
      rcases p with ⟨k0, v0⟩
      intro acc m h k
      simp only [mergeBindingsAux] at h
      cases hk0 : List.lookup k0 acc with
      | some v2 =>
          simp only [hk0] at h
          by_cases hv : v2 = v0
          · rw [if_pos hv] at h
            have hrec := ih acc m h k
            by_cases hkk : k = k0
            · subst hkk
              rw [hrec, hk0]
            · rw [hrec]
              cases hka : List.lookup k acc with
              | some v => simp
              | none =>
                  have hb : (k == k0) = false := by simp [hkk]
                  simp [List.lookup, hb]
          · rw [if_neg hv] at h
            exact absurd h (by simp)
      | none =>
          simp only [hk0] at h
          have hrec := ih (acc ++ [(k0, v0)]) m h k
          by_cases hkk : k = k0
          · subst hkk
            rw [hrec, lookup_append_none hk0, hk0]
            simp [List.lookup]
          · rw [hrec]
            cases hka : List.lookup k acc with
            | some v => rw [lookup_append_some hka]
            | none =>
                rw [lookup_append_none hka, lookup_single_ne hkk]
                have hb : (k == k0) = false := by simp [hkk]
                simp [List.lookup, hb]

/-- The `none` case of the merge loop: merging fails exactly on a conflicting
shared variable (the second dict having unique keys, as Python dicts do). -/
theorem mergeAux_none_iff :
    ∀ (rest : List (String × Value)) (acc : Bindings),
      (rest.map Prod.fst).Nodup →
      (mergeBindingsAux acc rest = none ↔
        ∃ k v1 v2, List.lookup k acc = some v1 ∧ List.lookup k rest = some v2 ∧
          v1 ≠ v2) := by
  intro rest
  induction rest with
  | nil =>
      intro acc _
      simp [mergeBindingsAux]
  | cons p rest ih =>
      rcases p with ⟨k0, v0⟩
      intro acc hnd
      have hk0nd : k0 ∉ rest.map Prod.fst := by
        simp only [List.map, List.nodup_cons] at hnd
        exact hnd.1
      have hndr : (rest.map Prod.fst).Nodup := by
        simp only [List.map, List.nodup_cons] at hnd
        exact hnd.2
      simp only [mergeBindingsAux]
      cases hk0 : List.lookup k0 acc with
      | some v2 =>
          simp only [hk0]
          by_cases hv : v2 = v0
          · subst hv
            rw [if_pos rfl, ih acc hndr]
            constructor
            · rintro ⟨k, w1, w2, h1, h2, h3⟩
              refine ⟨k, w1, w2, h1, ?_, h3⟩
              have hkk : ¬ k = k0 := by
                intro he
                subst he
                rw [lookup_none_of_not_mem_keys hk0nd] at h2
                exact absurd h2 (by simp)
              have hb : (k == k0) = false := by simp [hkk]
              simp only [List.lookup, hb]
              exact h2
            · rintro ⟨k, w1, w2, h1, h2, h3⟩
              by_cases hkk : k = k0
              · subst hkk
                have hb : (k == k) = true := by simp
                simp only [List.lookup, hb] at h2
                rw [hk0] at h1
                have hw1 : w1 = v2 := (Option.some.inj h1).symm
                have hw2 : v2 = w2 := Option.some.inj h2
                exact absurd (hw1.trans hw2) h3
              · refine ⟨k, w1, w2, h1, ?_, h3⟩
                have hb : (k == k0) = false := by simp [hkk]
                simp only [List.lookup, hb] at h2
                exact h2
          · rw [if_neg hv]
            constructor
            · intro _
              refine ⟨k0, v2, v0, hk0, ?_, hv⟩
              have hb : (k0 == k0) = true := by simp
              simp [List.lookup, hb]
            · intro _
              rfl
      | none =>
          simp only [hk0]
          rw [ih (acc ++ [(k0, v0)]) hndr]
          constructor
          · rintro ⟨k, w1, w2, h1, h2, h3⟩
            have hkk : ¬ k = k0 := by
              intro he
              subst he
              rw [lookup_none_of_not_mem_keys hk0nd] at h2
              exact absurd h2 (by simp)
            refine ⟨k, w1, w2, ?_, ?_, h3⟩
            · cases hka : List.lookup k acc with
              | some w =>
                  rw [lookup_append_some hka] at h1
                  rw [← Option.some.inj h1]
              | none =>
                  rw [lookup_append_none hka, lookup_single_ne hkk] at h1
                  exact absurd h1 (by simp)
            · have hb : (k == k0) = false := by simp [hkk]
              simp only [List.lookup, hb]
              exact h2
          · rintro ⟨k, w1, w2, h1, h2, h3⟩
            by_cases hkk : k = k0
            · subst hkk
              rw [hk0] at h1
              exact absurd h1 (by simp)
            · refine ⟨k, w1, w2, lookup_append_some h1, ?_, h3⟩
              have hb : (k == k0) = false := by simp [hkk]
              simp only [List.lookup, hb] at h2
              exact h2

/-- `_unify_bindings` (query.py) computes the same merge as `_merge_bindings`
(rules.py). -/
theorem unifyBindings_eq_mergeAux :
    ∀ (new : List (String × Value)) (existing : Bindings),
      unifyBindings existing new = mergeBindingsAux existing new := by
  have habsorb : ∀ (l : List (String × Value)),
      l.foldl
        (fun acc p =>
          match acc with
          | none => none
          | some result =>
              match List.lookup p.1 result with
              | some v => if v = p.2 then some result else none
              | none => some (result ++ [(p.1, p.2)]))
        none = none := by
    intro l
    induction l with
    | nil => rfl
    | cons p t ih => simpa using ih
  intro new
  induction new with
  | nil => intro existing; rfl
  | cons p t ih =>
      intro existing
      rcases p with ⟨k, v⟩
      simp only [unifyBindings, List.foldl, mergeBindingsAux]
      cases hk : List.lookup k existing with
      | some v2 =>
          by_cases hv : v2 = v
          · simp only [hk, hv, if_pos rfl]
            exact ih existing
          · simp only [hk, if_neg hv]
            exact habsorb t
      | none =>
          simp only [hk]
          exact ih (existing ++ [(k, v)])

/-! ## C8: same-variable conflicts and binding-set merging -/

/-- C8: binding the same variable name to two different values always fails:
unifying a pattern whose subject and object are the same variable name against
a concrete fact whose subject key and object key differ returns failure for
every candidate fact (whatever the constraints, prior bindings, and skip
flag); and `_unify_bindings` fails exactly when the two binding sets disagree
on a shared variable's value, otherwise yielding the union of the two
mappings (first mapping's value where both bind). -/
theorem c8_conflict_detection :
    (∀ (qSat : QNode → Nat → Bool) (t x : String) (w1 w2 : Option QNode)
       (f : Fact) (existingBindings : Bindings) (skip : Bool),
        f.subject.key ≠ f.object.key →
        unifyFactPattern qSat ⟨t, .var ⟨x, w1⟩, .var ⟨x, w2⟩⟩ f existingBindings skip
          = none) ∧
    (∀ (existing new : Bindings),
        (new.map Prod.fst).Nodup →
        ((unifyBindings existing new = none ↔
            ∃ k v1 v2, List.lookup k existing = some v1 ∧
              List.lookup k new = some v2 ∧ v1 ≠ v2) ∧
          (∀ m, unifyBindings existing new = some m → ∀ k,
            List.lookup k m =
              match List.lookup k existing with
              | some v => some v
              | none => List.lookup k new))) := by
  constructor
  · intro qSat t x w1 w2 f existingBindings skip hne
    have hval : ¬ toPkValue f.subject = toPkValue f.object := by
      simp only [toPkValue, Value.raw.injEq]
      exact hne
    have hbx : (x == x) = true := by simp
    unfold unifyFactPattern
    rcases w1 with _ | w1 <;> rcases w2 with _ | w2 <;>
      simp only [List.lookup, hbx] <;> split_ifs <;>
      simp_all [List.lookup, hbx]
  · intro existing new hnd
    constructor
    · rw [unifyBindings_eq_mergeAux]
      exact mergeAux_none_iff new existing hnd
    · intro m hm k
      rw [unifyBindings_eq_mergeAux] at hm
      exact mergeAux_some_lookup new existing m hm k

/-- C8 witness: the concrete self-join pattern fails on a fact with distinct
keys, and a concrete conflicting merge fails while a compatible merge unions. -/
theorem c8_witness :
    unifyFactPattern (fun _ _ => true) ⟨"ParentOf", .var ⟨"x", none⟩, .var ⟨"x", none⟩⟩
        ⟨"ParentOf", .obj 1, .obj 2⟩ [] true = none ∧
    unifyBindings [("a", Value.raw 1)] [("a", Value.raw 2), ("b", Value.raw 3)]
        = none := by
  constructor
  · exact c8_conflict_detection.1 (fun _ _ => true) "ParentOf" "x" none none
      ⟨"ParentOf", .obj 1, .obj 2⟩ [] true (by decide)
  · exact ((c8_conflict_detection.2 [("a", Value.raw 1)]
      [("a", Value.raw 2), ("b", Value.raw 3)] (by simp)).1).mpr
      ⟨"a", Value.raw 1, Value.raw 2, by simp [List.lookup], by simp [List.lookup],
        by decide⟩

/-! ## C10: substitution of variables into Q objects -/

mutual

theorem substSkeleton : ∀ (q : QNode) (subs : QSubst),
    qSkeleton (substituteVariablesInQ q subs) = qSkeleton q
  | .lookup _ _, _ => rfl
  | .node c n ch, subs => by
      show QNode.node c n (childrenSkeleton (substituteInChildren ch subs))
          = QNode.node c n (childrenSkeleton ch)
      rw [substChildrenSkeleton ch subs]

theorem substChildrenSkeleton : ∀ (ch : QChildren) (subs : QSubst),
    childrenSkeleton (substituteInChildren ch subs) = childrenSkeleton ch
  | .nil, _ => rfl
  | .cons (.lookup _ _) t, subs => by
      show QChildren.cons (.lookup "" (.scalar 0))
            (childrenSkeleton (substituteInChildren t subs))
          = QChildren.cons (.lookup "" (.scalar 0)) (childrenSkeleton t)
      rw [substChildrenSkeleton t subs]
  | .cons (.node cn ng ch) t, subs => by
      show QChildren.cons (qSkeleton (substituteVariablesInQ (.node cn ng ch) subs))
            (childrenSkeleton (substituteInChildren t subs))
          = QChildren.cons (qSkeleton (.node cn ng ch)) (childrenSkeleton t)
      rw [substSkeleton (.node cn ng ch) subs, substChildrenSkeleton t subs]

end

theorem substChildrenLeaves : ∀ (ch : QChildren) (subs : QSubst),
    childrenLeaves (substituteInChildren ch subs)
      = (childrenLeaves ch).map fun v => substituteValueRecursively v subs
  | .nil, _ => rfl
  | .cons (.lookup _ v) t, subs => by
      show substituteValueRecursively v subs
            :: childrenLeaves (substituteInChildren t subs)
          = (v :: childrenLeaves t).map fun w => substituteValueRecursively w subs
      rw [substChildrenLeaves t subs]
      rfl
  | .cons (.node cn ng ch) t, subs => by
      show childrenLeaves (substituteInChildren ch subs)
            ++ childrenLeaves (substituteInChildren t subs)
          = (childrenLeaves ch ++ childrenLeaves t).map
              fun w => substituteValueRecursively w subs
      rw [substChildrenLeaves ch subs, substChildrenLeaves t subs,
        List.map_append]

mutual

theorem substValueNoVars : ∀ (v : QVal) (subs : QSubst),
    (∀ x ∈ valVars v, ∃ w, List.lookup x subs = some w ∧ valueHasVariables w = false) →
    valueHasVariables (substituteValueRecursively v subs) = false
  | .scalar _, _, _ => rfl
  | .qvar x, subs, hb => by
      obtain ⟨w, hw, hwf⟩ := hb x (by simp [valVars])
      show valueHasVariables
          (match List.lookup x subs with
           | some w => w
           | none => .qvar x) = false
      rw [hw]
      exact hwf
  | .vlist xs, subs, hb => substValueListNoVars xs subs hb
  | .vtup xs, subs, hb => substValueListNoVars xs subs hb

theorem substValueListNoVars : ∀ (xs : QValList) (subs : QSubst),
    (∀ x ∈ valListVars xs, ∃ w, List.lookup x subs = some w ∧
        valueHasVariables w = false) →
    valueListHasVariables (substituteValueList xs subs) = false
  | .nil, _, _ => rfl
  | .cons v t, subs, hb => by
      show (valueHasVariables (substituteValueRecursively v subs)
            || valueListHasVariables (substituteValueList t subs)) = false
      rw [substValueNoVars v subs fun x hx =>
          hb x (by simp [valListVars]; exact Or.inl hx),
        substValueListNoVars t subs fun x hx =>
          hb x (by simp [valListVars]; exact Or.inr hx)]
      rfl

end

mutual

theorem substQNoVars : ∀ (q : QNode) (subs : QSubst),
    (∀ x ∈ qVars q, ∃ w, List.lookup x subs = some w ∧ valueHasVariables w = false) →
    hasVariableReferences (substituteVariablesInQ q subs) = false
  | .lookup _ _, _, _ => rfl
  | .node _ _ ch, subs, hb => substChildrenNoVars ch subs hb

theorem substChildrenNoVars : ∀ (ch : QChildren) (subs : QSubst),
    (∀ x ∈ childrenVars ch, ∃ w, List.lookup x subs = some w ∧
        valueHasVariables w = false) →
    childrenHaveVariables (substituteInChildren ch subs) = false
  | .nil, _, _ => rfl
  | .cons (.lookup f v) t, subs, hb => by
      show (valueHasVariables (substituteValueRecursively v subs)
            || childrenHaveVariables (substituteInChildren t subs)) = false
      rw [substValueNoVars v subs fun x hx =>
          hb x (by simp [childrenVars]; exact Or.inl hx),
        substChildrenNoVars t subs fun x hx =>
          hb x (by simp [childrenVars]; exact Or.inr hx)]
      rfl
  | .cons (.node cn ng ch) t, subs, hb => by
      show (hasVariableReferences (substituteVariablesInQ (.node cn ng ch) subs)
            || childrenHaveVariables (substituteInChildren t subs)) = false
      rw [substQNoVars (.node cn ng ch) subs fun x hx =>
          hb x (by simp [childrenVars, qVars]; exact Or.inl hx),
        substChildrenNoVars t subs fun x hx =>
          hb x (by simp [childrenVars]; exact Or.inr hx)]
      rfl

end

/-- C10 (amended): `substitute_variables_in_q` preserves the connector and
negation skeleton, rewrites exactly the leaf values by the recursive value
substitution (a bound `Var` leaf becomes the substitution's value, an unbound
or non-`Var` leaf is unchanged, recursing into lists and tuples), and when
every variable referenced in `q` is bound to a value itself free of variable
references, the result has no variable references. -/
theorem c10_substitute_variables_in_q (subs : QSubst) :
    (∀ q, qSkeleton (substituteVariablesInQ q subs) = qSkeleton q) ∧
    (∀ c n ch, qLeaves (substituteVariablesInQ (QNode.node c n ch) subs)
        = (qLeaves (QNode.node c n ch)).map
            fun v => substituteValueRecursively v subs) ∧
    (∀ x w, List.lookup x subs = some w →
      substituteValueRecursively (.qvar x) subs = w) ∧
    (∀ x, List.lookup x subs = none →
      substituteValueRecursively (.qvar x) subs = .qvar x) ∧
    (∀ n, substituteValueRecursively (.scalar n) subs = .scalar n) ∧
    (∀ q, (∀ x ∈ qVars q, ∃ w, List.lookup x subs = some w ∧
          valueHasVariables w = false) →
      hasVariableReferences (substituteVariablesInQ q subs) = false) := by
  refine ⟨fun q => substSkeleton q subs,
    fun c n ch => substChildrenLeaves ch subs, ?_, ?_,
    fun n => rfl, fun q hb => substQNoVars q subs hb⟩
  · intro x w hw
    show (match List.lookup x subs with
          | some w => w
          | none => .qvar x) = w
    rw [hw]
  · intro x hw
    show (match List.lookup x subs with
          | some w => w
          | none => .qvar x) = .qvar x
    rw [hw]

/-- Whether a Q-lookup value is itself a `Var` instance. -/
def isQvar : QVal → Bool
  | .qvar _ => true
  | _ => false

/-- The C10 counterexample constraint: `Q(f=Var("x"))`. -/
def c10q : QNode :=
  .node "AND" false (.cons (.lookup "f" (.qvar "x")) .nil)

/-- The C10 counterexample substitution: `x` bound to the list `[Var("y")]` —
a non-`Var` value that still contains a variable reference. -/
def c10s : QSubst :=
  [("x", .vlist (.cons (.qvar "y") .nil))]

/-- C10 counterexample: every variable referenced in the constraint is bound
to a non-`Var` value, yet the substituted constraint still has variable
references — the claim's final clause fails as stated. -/
theorem c10_counterexample :
    (∀ x ∈ qVars c10q, ∃ w, List.lookup x c10s = some w ∧ isQvar w = false) ∧
    hasVariableReferences (substituteVariablesInQ c10q c10s) = true := by
  constructor
  · intro x hx
    have hq : qVars c10q = ["x"] := rfl
    rw [hq] at hx
    have hxx : x = "x" := by simpa using hx
    subst hxx
    exact ⟨.vlist (.cons (.qvar "y") .nil), rfl, rfl⟩
  · rfl

/-- C10 witness: the amended theorem at the counterexample's constraint with a
variable-free substitution. -/
theorem c10_witness :
    hasVariableReferences (substituteVariablesInQ c10q [("x", QVal.scalar 5)]) = false ∧
    qSkeleton (substituteVariablesInQ c10q [("x", QVal.scalar 5)]) = qSkeleton c10q := by
  constructor
  · refine (c10_substitute_variables_in_q [("x", QVal.scalar 5)]).2.2.2.2.2 c10q ?_
    intro x hx
    have hq : qVars c10q = ["x"] := rfl
    rw [hq] at hx
    have hxx : x = "x" := by simpa using hx
    subst hxx
    exact ⟨.scalar 5, rfl, rfl⟩
  · exact (c10_substitute_variables_in_q [("x", QVal.scalar 5)]).1 c10q

/-! ## C5: deferred cross-variable validation in the conjunctive solver -/

theorem crossVar_occurrence_hasRefs :
    ∀ (conds : List Pattern) (v : Var), v ∈ crossVarOccurrences conds →
      ∀ w, v.whereQ = some w → hasVariableReferences w = true := by
  intro conds v hv w hw
  unfold crossVarOccurrences at hv
  rw [List.mem_flatMap] at hv
  obtain ⟨c, _, hvc⟩ := hv
  rcases c with ⟨ct, cs, co⟩
  rw [List.mem_append] at hvc
  rcases hvc with h | h
  · rcases cs with cv | ⟨vn, vw⟩
    · simp at h
    · rcases vw with _ | ws
      · simp at h
      · by_cases hr : hasVariableReferences ws = true
        · simp only [if_pos hr, List.mem_singleton] at h
          subst h
          have : ws = w := Option.some.inj hw
          rw [← this]
          exact hr
        · simp only [if_neg hr] at h
          simp at h
  · rcases co with cv | ⟨vn, vw⟩
    · simp at h
    · rcases vw with _ | ws
      · simp at h
      · by_cases hr : hasVariableReferences ws = true
        · simp only [if_pos hr, List.mem_singleton] at h
          subst h
          have : ws = w := Option.some.inj hw
          rw [← this]
          exact hr
        · simp only [if_neg hr] at h
          simp at h

theorem satisfy_mem_validate (isInferred : String → Bool)
    (qSat : QNode → Nat → Bool) (dbHas : Nat → Bool) (store : Store)
    (rules : List Rule) :
    ∀ (conditions : List Pattern) (bindings : Bindings)
      (originalConditions : List Pattern) (emitted : Bindings),
      emitted ∈ satisfyConjunction isInferred qSat dbHas store rules conditions
          bindings originalConditions →
      validateCrossVariableConstraints qSat dbHas originalConditions emitted = true := by
  intro conditions
  induction conditions with
  | nil =>
      intro bindings orig emitted hmem
      simp only [satisfyConjunction] at hmem
      by_cases hval :
          validateCrossVariableConstraints qSat dbHas orig bindings = true
      · rw [if_pos hval] at hmem
        have : emitted = bindings := by simpa using hmem
        rw [this]
        exact hval
      · rw [if_neg hval] at hmem
        simp at hmem
  | cons condition remaining ih =>
      intro bindings orig emitted hmem
      simp only [satisfyConjunction] at hmem
      rw [List.mem_flatMap] at hmem
      obtain ⟨result, _, hmem2⟩ := hmem
      cases hu : unifyBindings bindings result with
      | none =>
          rw [hu] at hmem2
          simp at hmem2
      | some newBindings =>
          rw [hu] at hmem2
          exact ih newBindings orig emitted hmem2

/-- C5: every binding set emitted by the conjunctive solver passes the
deferred cross-variable validation over the original conditions; in
particular, for every cross-variable constraint occurrence whose variable is
bound, once substituting the resolved bindings leaves no variable references,
the bound entity satisfies the substituted predicate (via the store's
predicate evaluation), so no emitted binding set violates a fully resolvable
cross-variable constraint. -/
theorem c5_solver_validates_cross_variable_constraints
    (isInferred : String → Bool) (qSat : QNode → Nat → Bool) (dbHas : Nat → Bool)
    (store : Store) (rules : List Rule) (conditions : List Pattern)
    (bindings : Bindings) (originalConditions : List Pattern) (emitted : Bindings)
    (hmem : emitted ∈ satisfyConjunction isInferred qSat dbHas store rules
        conditions bindings originalConditions) :
    validateCrossVariableConstraints qSat dbHas originalConditions emitted = true ∧
    (∀ v ∈ crossVarOccurrences originalConditions, ∀ w, v.whereQ = some w →
      ∀ bv, List.lookup v.name emitted = some bv →
        hasVariableReferences
            (substituteVariablesInQ w
              (emitted.map fun p => (p.1, QVal.scalar p.2.key))) = false →
        ∃ pk, getModelInstanceFromBinding dbHas bv = .obj pk ∧
          qSat (substituteVariablesInQ w
              (emitted.map fun p => (p.1, QVal.scalar p.2.key))) pk = true) := by
  have hval := satisfy_mem_validate isInferred qSat dbHas store rules conditions
    bindings originalConditions emitted hmem
  refine ⟨hval, ?_⟩
  intro v hv w hw bv hbv hres
  have hcheck : checkQConstraintWithBindings qSat
      (getModelInstanceFromBinding dbHas bv) w emitted = true := by
    unfold validateCrossVariableConstraints at hval
    rw [List.all_eq_true] at hval
    have := hval v hv
    rw [hbv, hw] at this
    exact this
  have hrefs : hasVariableReferences w = true :=
    crossVar_occurrence_hasRefs originalConditions v hv w hw
  unfold checkQConstraintWithBindings at hcheck
  rw [if_pos hrefs] at hcheck
  rw [if_neg (by rw [hres]; exact Bool.false_ne_true)] at hcheck
  cases hbind : getModelInstanceFromBinding dbHas bv with
  | obj pk =>
      rw [hbind] at hcheck
      exact ⟨pk, rfl, hcheck⟩
  | raw k =>
      rw [hbind] at hcheck
      exact absurd hcheck (by simp)

/-- C5 witness: a one-pattern conjunction over a one-row store emits exactly
the matching binding set, which validates. -/
theorem c5_witness :
    [("x", Value.raw 1), ("y", Value.raw 2)]
        ∈ satisfyConjunction (fun _ => false) (fun _ _ => true) (fun _ => true)
            [("ParentOf", 1, 2)] []
            [⟨"ParentOf", .var ⟨"x", none⟩, .var ⟨"y", none⟩⟩] []
            [⟨"ParentOf", .var ⟨"x", none⟩, .var ⟨"y", none⟩⟩] ∧
    validateCrossVariableConstraints (fun _ _ => true) (fun _ => true)
        [⟨"ParentOf", .var ⟨"x", none⟩, .var ⟨"y", none⟩⟩]
        [("x", Value.raw 1), ("y", Value.raw 2)] = true := by
  have hmem : [("x", Value.raw 1), ("y", Value.raw 2)]
      ∈ satisfyConjunction (fun _ => false) (fun _ _ => true) (fun _ => true)
          [("ParentOf", 1, 2)] []
          [⟨"ParentOf", .var ⟨"x", none⟩, .var ⟨"y", none⟩⟩] []
          [⟨"ParentOf", .var ⟨"x", none⟩, .var ⟨"y", none⟩⟩] := by decide
  exact ⟨hmem,
    (c5_solver_validates_cross_variable_constraints (fun _ => false)
      (fun _ _ => true) (fun _ => true) [("ParentOf", 1, 2)] []
      [⟨"ParentOf", .var ⟨"x", none⟩, .var ⟨"y", none⟩⟩] []
      [⟨"ParentOf", .var ⟨"x", none⟩, .var ⟨"y", none⟩⟩]
      [("x", Value.raw 1), ("y", Value.raw 2)] hmem).1⟩

/-! ## C1: derivability and completeness of the targeted rule engine

`Derives rules base` is the semantic derivability relation of the claim: the
least set containing the base facts and closed under applying a rule — a
substitution whose domain lies within the rule's body variables, under which
every body condition matches some derivable fact and the head instantiates to
the derived fact. -/

/-- Whether a pattern position matches a concrete value under a
substitution. -/
def termMatchesB (σ : Bindings) : FTerm → Value → Bool
  | .const c, w => c == w
  | .var v, w => List.lookup v.name σ == some w

/-- Whether a pattern matches a concrete fact under a substitution. -/
def patMatchesB (σ : Bindings) (c : Pattern) (f : Fact) : Bool :=
  c.ftype == f.ftype && termMatchesB σ c.subject f.subject
    && termMatchesB σ c.object f.object

/-- The variable names of a pattern position. -/
def termVarNames : FTerm → List String
  | .const _ => []
  | .var v => [v.name]

/-- The variable names of a pattern, subject first. -/
def patVarNames (c : Pattern) : List String :=
  termVarNames c.subject ++ termVarNames c.object

/-- The variable names of a rule body. -/
def bodyVarNames (body : List Pattern) : List String :=
  body.flatMap patVarNames

/-- Semantic derivability: facts derivable from the base facts by the given
rules. -/
inductive Derives (rules : List Rule) (base : List Fact) : Fact → Prop
  | base {f : Fact} : f ∈ base → Derives rules base f
  | step {r : Rule} {σ : Bindings} {bodyFacts : List Fact} {h : Fact} :
      r ∈ rules →
      List.Forall₂ (fun c f => patMatchesB σ c f = true) r.body bodyFacts →
      (∀ f ∈ bodyFacts, Derives rules base f) →
      (∀ p ∈ σ, p.1 ∈ bodyVarNames r.body) →
      patMatchesB σ r.head h = true →
      Derives rules base h

/-- A pattern position is plain when it is an entity constant or an
unconstrained variable. -/
def plainTerm : FTerm → Bool
  | .const (.obj _) => true
  | .const (.raw _) => false
  | .var v => v.whereQ.isNone

/-- A rule is plain when every head and body position is plain. -/
def plainRule (r : Rule) : Bool :=
  plainTerm r.head.subject && plainTerm r.head.object
    && r.body.all fun c => plainTerm c.subject && plainTerm c.object

/-- A fact whose two positions are entity objects. -/
def entFact (f : Fact) : Bool :=
  f.subject.isObj && f.object.isObj

/-! ### Basic fact-equality lemmas -/

theorem factEq_refl (f : Fact) : factEq f f = true := by
  simp [factEq]

theorem factEq_ftype {f g : Fact} (h : factEq f g = true) : f.ftype = g.ftype := by
  simp only [factEq, Bool.and_eq_true, beq_iff_eq] at h
  exact h.1.1

theorem factEq_trans {f g h : Fact} (h1 : factEq f g = true)
    (h2 : factEq g h = true) : factEq f h = true := by
  simp only [factEq, Bool.and_eq_true, beq_iff_eq] at h1 h2 ⊢
  exact ⟨⟨h1.1.1.trans h2.1.1, h1.1.2.trans h2.1.2⟩, h1.2.trans h2.2⟩

theorem factEq_of_ent {f g : Fact} (hf : entFact f = true) (hg : entFact g = true)
    (h : factEq f g = true) : f = g := by
  rcases f with ⟨tf, sf, of⟩
  rcases g with ⟨tg, sg, og⟩
  simp only [factEq, Bool.and_eq_true, beq_iff_eq] at h
  simp only [entFact, Bool.and_eq_true] at hf hg
  rcases sf with pf | pf <;> rcases sg with pg | pg <;>
    rcases of with qf | qf <;> rcases og with qg | qg <;>
    simp_all [Value.isObj, Value.key]

theorem memFact_spec {f : Fact} {l : List Fact} :
    memFact f l = true ↔ ∃ g ∈ l, factEq g f = true := by
  simp [memFact, List.any_eq_true]

theorem memFact_of_mem {f : Fact} {l : List Fact} (h : f ∈ l) :
    memFact f l = true :=
  memFact_spec.mpr ⟨f, h, factEq_refl f⟩

theorem memFact_of_grows {f : Fact} {l l2 : List Fact} (h : memFact f l = true)
    (hg : Grows l l2) : memFact f l2 = true := by
  obtain ⟨g, hgl, hge⟩ := memFact_spec.mp h
  exact memFact_spec.mpr ⟨g, mem_of_grows hg hgl, hge⟩

theorem memFact_append_right {f : Fact} {l1 l2 : List Fact}
    (h : memFact f l2 = true) : memFact f (l1 ++ l2) = true := by
  obtain ⟨g, hgl, hge⟩ := memFact_spec.mp h
  exact memFact_spec.mpr ⟨g, List.mem_append_right l1 hgl, hge⟩

theorem mem_of_memFact_ent {f : Fact} {l : List Fact} (hf : entFact f = true)
    (hl : ∀ g ∈ l, entFact g = true) (h : memFact f l = true) : f ∈ l := by
  obtain ⟨g, hgl, hge⟩ := memFact_spec.mp h
  rw [← factEq_of_ent (hl g hgl) hf hge]
  exact hgl

/-! ### Key-lookup helpers -/

theorem lookup_some_mem_keys {x : String} {w : Value} {b : Bindings}
    (h : List.lookup x b = some w) : x ∈ b.map Prod.fst := by
  induction b with
  | nil => simp [List.lookup] at h
  | cons p t ih =>
      rcases p with ⟨a, v⟩
      simp only [List.lookup] at h
      by_cases hk : (x == a) = true
      · simp only [List.map, List.mem_cons]
        exact Or.inl (by simpa using hk)
      · simp only [hk] at h
        simp only [List.map, List.mem_cons]
        exact Or.inr (ih h)

theorem lookup_isSome_of_mem_keys {x : String} {b : Bindings}
    (h : x ∈ b.map Prod.fst) : (List.lookup x b).isSome = true := by
  induction b with
  | nil => simp at h
  | cons p t ih =>
      rcases p with ⟨a, v⟩
      simp only [List.map, List.mem_cons] at h
      by_cases hk : (x == a) = true
      · simp [List.lookup, hk]
      · simp only [List.lookup, hk]
        rcases h with h | h
        · exact absurd (by simp [h] : (x == a) = true) hk
        · exact ih h

/-! ### Unification completeness against a matching substitution -/

/-- `b` is a sub-mapping of `σ`. -/
def Submap (σ b : Bindings) : Prop :=
  ∀ x w, List.lookup x b = some w → List.lookup x σ = some w

theorem lookup_single_some {x a : String} {v w : Value}
    (h : List.lookup x [(a, v)] = some w) : x = a ∧ w = v := by
  by_cases hk : (x == a) = true
  · simp only [List.lookup, hk] at h
    exact ⟨by simpa using hk, (Option.some.inj h).symm⟩
  · simp only [List.lookup, hk] at h
    simp [List.lookup] at h

theorem unifyFacts_complete {σ : Bindings} {c : Pattern} {f : Fact}
    (hm : patMatchesB σ c f = true) :
    ∃ b, unifyFacts c f = some b ∧ Submap σ b ∧
      (∀ x ∈ patVarNames c, (List.lookup x b).isSome) ∧
      (∀ x w, List.lookup x b = some w → x ∈ patVarNames c) ∧
      (b.map Prod.fst).Nodup := by
  have hm' := hm
  simp only [patMatchesB, Bool.and_eq_true, beq_iff_eq] at hm'
  obtain ⟨⟨hft, hsub⟩, hobj⟩ := hm'
  rcases c with ⟨ct, cs, co⟩
  rcases cs with cv | sv
  · simp only [termMatchesB, beq_iff_eq] at hsub
    rcases co with cov | ov
    · simp only [termMatchesB, beq_iff_eq] at hobj
      refine ⟨[], by simp [unifyFacts, hsub, hobj], ?_, ?_, ?_, ?_⟩
      · intro x w hx
        simp [List.lookup] at hx
      · intro x hx
        simp [patVarNames, termVarNames] at hx
      · intro x w hx
        simp [List.lookup] at hx
      · simp
    · simp only [termMatchesB, beq_iff_eq] at hobj
      refine ⟨[(ov.name, f.object)], ?_, ?_, ?_, ?_, ?_⟩
      · simp [unifyFacts, hsub, List.lookup]
      · intro x w hx
        obtain ⟨hxa, hwv⟩ := lookup_single_some hx
        rw [hxa, hwv]
        exact hobj
      · intro x hx
        simp only [patVarNames, termVarNames, List.nil_append,
          List.mem_singleton] at hx
        subst hx
        simp [List.lookup]
      · intro x w hx
        obtain ⟨hxa, _⟩ := lookup_single_some hx
        simp [patVarNames, termVarNames, hxa]
      · simp
  · simp only [termMatchesB, beq_iff_eq] at hsub
    rcases co with cov | ov
    · simp only [termMatchesB, beq_iff_eq] at hobj
      refine ⟨[(sv.name, f.subject)], ?_, ?_, ?_, ?_, ?_⟩
      · simp [unifyFacts, hobj]
      · intro x w hx
        obtain ⟨hxa, hwv⟩ := lookup_single_some hx
        rw [hxa, hwv]
        exact hsub
      · intro x hx
        simp only [patVarNames, termVarNames, List.append_nil,
          List.mem_singleton] at hx
        subst hx
        simp [List.lookup]
      · intro x w hx
        obtain ⟨hxa, _⟩ := lookup_single_some hx
        simp [patVarNames, termVarNames, hxa]
      · simp
    · simp only [termMatchesB, beq_iff_eq] at hobj
      by_cases hnn : ov.name = sv.name
      · have hsame : f.subject = f.object := by
          rw [hnn] at hobj
          rw [hsub] at hobj
          exact Option.some.inj hobj
        refine ⟨[(sv.name, f.subject)], ?_, ?_, ?_, ?_, ?_⟩
        · have hb : (ov.name == sv.name) = true := by simp [hnn]
          simp [unifyFacts, List.lookup, hb, ← hsame]
        · intro x w hx
          obtain ⟨hxa, hwv⟩ := lookup_single_some hx
          rw [hxa, hwv]
          exact hsub
        · intro x hx
          simp only [patVarNames, termVarNames, List.mem_append,
            List.mem_singleton] at hx
          rcases hx with hx | hx <;> subst hx
          · simp [List.lookup]
          · have hb : (ov.name == sv.name) = true := by simp [hnn]
            simp [List.lookup, hb]
        · intro x w hx
          obtain ⟨hxa, _⟩ := lookup_single_some hx
          simp [patVarNames, termVarNames, hxa]
        · simp
      · refine ⟨[(sv.name, f.subject), (ov.name, f.object)], ?_, ?_, ?_, ?_, ?_⟩
        · have hb : (ov.name == sv.name) = false := by simp [hnn]
          simp [unifyFacts, List.lookup, hb]
        · intro x w hx
          by_cases hxs : (x == sv.name) = true
          · simp only [List.lookup, hxs] at hx
            rw [show x = sv.name by simpa using hxs, (Option.some.inj hx).symm]
            exact hsub
          · simp only [List.lookup, hxs] at hx
            obtain ⟨hxa, hwv⟩ := lookup_single_some hx
            rw [hxa, hwv]
            exact hobj
        · intro x hx
          simp only [patVarNames, termVarNames, List.mem_append,
            List.mem_singleton] at hx
          rcases hx with hx | hx <;> subst hx
          · simp [List.lookup]
          · have hb : (ov.name == sv.name) = false := by simp [hnn]
            simp [List.lookup, hb]
        · intro x w hx
          by_cases hxs : (x == sv.name) = true
          · simp [patVarNames, termVarNames]
            exact Or.inl (by simpa using hxs)
          · simp only [List.lookup, hxs] at hx
            obtain ⟨hxa, _⟩ := lookup_single_some hx
            simp [patVarNames, termVarNames, hxa]
        · have hne : sv.name ≠ ov.name := fun he => hnn he.symm
          simp [hne]

/-- The possible shapes of a successful unification's binding delta: values
are drawn from the concrete fact's positions. -/
theorem unifyFacts_shape {c : Pattern} {f : Fact} {b : Bindings}
    (h : unifyFacts c f = some b) :
    b = [] ∨ (∃ n, b = [(n, f.subject)]) ∨ (∃ n, b = [(n, f.object)]) ∨
      (∃ n1 n2, b = [(n1, f.subject), (n2, f.object)]) := by
  rcases c with ⟨ct, cs, co⟩
  rcases cs with cv | sv
  · by_cases h1 : cv = f.subject
    · rcases co with cov | ov
      · by_cases h2 : cov = f.object
        · simp only [unifyFacts, if_pos h1, if_pos h2, Option.some.injEq] at h
          exact Or.inl h.symm
        · simp only [unifyFacts, if_pos h1, if_neg h2] at h
          exact absurd h (by simp)
      · simp only [unifyFacts, if_pos h1, List.lookup, List.nil_append,
          Option.some.injEq] at h
        exact Or.inr (Or.inr (Or.inl ⟨ov.name, h.symm⟩))
    · rcases co with cov | ov <;>
        · simp only [unifyFacts, if_neg h1] at h
          exact absurd h (by simp)
  · rcases co with cov | ov
    · by_cases h2 : cov = f.object
      · simp only [unifyFacts, if_pos h2, Option.some.injEq] at h
        exact Or.inr (Or.inl ⟨sv.name, h.symm⟩)
      · simp only [unifyFacts, if_neg h2] at h
        exact absurd h (by simp)
    · by_cases hb : (ov.name == sv.name) = true
      · simp only [unifyFacts, List.lookup, hb] at h
        by_cases h2 : f.subject = f.object
        · rw [if_pos h2] at h
          exact Or.inr (Or.inl ⟨sv.name, (Option.some.inj h).symm⟩)
        · rw [if_neg h2] at h
          exact absurd h (by simp)
      · simp only [unifyFacts, List.lookup, hb, Option.some.injEq] at h
        exact Or.inr (Or.inr (Or.inr ⟨sv.name, ov.name, h.symm⟩))

/-! ### Merging bindings that agree with one substitution -/

theorem mergeAux_nodup :
    ∀ (b2 : List (String × Value)) (b1 m : Bindings),
      (b1.map Prod.fst).Nodup → mergeBindingsAux b1 b2 = some m →
      (m.map Prod.fst).Nodup := by
  intro b2
  induction b2 with
  | nil =>
      intro b1 m hnd h
      have : b1 = m := by simpa [mergeBindingsAux] using h
      rw [← this]
      exact hnd
  | cons p rest ih =>
      rcases p with ⟨k, v⟩
      intro b1 m hnd h
      simp only [mergeBindingsAux] at h
      cases hk : List.lookup k b1 with
      | some v2 =>
          simp only [hk] at h
          by_cases hv : v2 = v
          · rw [if_pos hv] at h
            exact ih b1 m hnd h
          · rw [if_neg hv] at h
            exact absurd h (by simp)
      | none =>
          simp only [hk] at h
          refine ih (b1 ++ [(k, v)]) m ?_ h
          have hkn : k ∉ b1.map Prod.fst := by
            intro hmem
            have := lookup_isSome_of_mem_keys hmem
            rw [hk] at this
            simp at this
          rw [List.map_append]
          rw [List.nodup_append]
          exact ⟨hnd, by simp, by
            intro a ha hb
            simp only [List.map, List.mem_singleton] at hb
            rw [hb] at ha
            exact hkn ha⟩

theorem merge_submap {σ b1 b2 : Bindings} (h1 : Submap σ b1) (h2 : Submap σ b2)
    (hnd1 : (b1.map Prod.fst).Nodup) (hnd2 : (b2.map Prod.fst).Nodup) :
    ∃ m, mergeBindings b1 b2 = some m ∧ Submap σ m ∧
      (∀ x, (List.lookup x m).isSome = true ↔
        ((List.lookup x b1).isSome = true ∨ (List.lookup x b2).isSome = true)) ∧
      (m.map Prod.fst).Nodup := by
  cases hm : mergeBindings b1 b2 with
  | none =>
      exfalso
      obtain ⟨k, v1, v2, hk1, hk2, hne⟩ := (mergeAux_none_iff b2 b1 hnd2).mp hm
      have e1 := h1 k v1 hk1
      have e2 := h2 k v2 hk2
      rw [e1] at e2
      exact hne (Option.some.inj e2)
  | some m =>
      have hlook := mergeAux_some_lookup b2 b1 m hm
      refine ⟨m, rfl, ?_, ?_, mergeAux_nodup b2 b1 m hnd1 hm⟩
      · intro x w hx
        rw [hlook x] at hx
        cases hb1 : List.lookup x b1 with
        | some v =>
            rw [hb1] at hx
            exact h1 x w (by rw [hb1, Option.some.inj hx])
        | none =>
            rw [hb1] at hx
            exact h2 x w hx
      · intro x
        rw [hlook x]
        cases hb1 : List.lookup x b1 with
        | some v => simp
        | none => simp

theorem mem_findBindingsForCondition {c : Pattern} {F : List Fact} {f : Fact}
    {b : Bindings} (hf : f ∈ F) (ht : (f.ftype == c.ftype) = true)
    (hb : unifyFacts c f = some b) : b ∈ findBindingsForCondition c F := by
  unfold findBindingsForCondition
  rw [List.mem_filterMap]
  exact ⟨f, hf, by rw [if_pos ht]; exact hb⟩

theorem bodyVarNames_cons (c : Pattern) (rest : List Pattern) :
    bodyVarNames (c :: rest) = patVarNames c ++ bodyVarNames rest := by
  simp [bodyVarNames]

theorem findAllBindings_complete :
    ∀ (body : List Pattern) (F : List Fact) (σ : Bindings),
      (∀ c ∈ body, ∃ f ∈ F, patMatchesB σ c f = true) →
      ∃ b ∈ findAllBindings body F,
        Submap σ b ∧ (∀ x ∈ bodyVarNames body, (List.lookup x b).isSome = true) ∧
        (∀ x w, List.lookup x b = some w → x ∈ bodyVarNames body) ∧
        (b.map Prod.fst).Nodup := by
  intro body
  induction body with
  | nil =>
      intro F σ _
      refine ⟨[], ?_, ?_, ?_, ?_, ?_⟩
      · simp [findAllBindings]
      · intro x w hx
        simp [List.lookup] at hx
      · intro x hx
        simp [bodyVarNames] at hx
      · intro x w hx
        simp [List.lookup] at hx
      · simp
  | cons c rest ih =>
      intro F σ hall
      obtain ⟨f, hf, hm⟩ := hall c (List.mem_cons_self c rest)
      obtain ⟨bc, hbc, hsubc, hcovc, hdomc, hndc⟩ := unifyFacts_complete hm
      have htype : (f.ftype == c.ftype) = true := by
        have hft : c.ftype = f.ftype := by
          simp only [patMatchesB, Bool.and_eq_true, beq_iff_eq] at hm
          exact hm.1.1
        simp [hft]
      have hmemc : bc ∈ findBindingsForCondition c F :=
        mem_findBindingsForCondition hf htype hbc
      cases rest with
      | nil =>
          refine ⟨bc, ?_, hsubc, ?_, ?_, hndc⟩
          · show bc ∈ findAllBindings [c] F
            simp only [findAllBindings]
            exact hmemc
          · intro x hx
            rw [bodyVarNames_cons] at hx
            simp only [bodyVarNames, List.flatMap_nil, List.append_nil] at hx
            exact hcovc x hx
          · intro x w hx
            rw [bodyVarNames_cons]
            simp only [bodyVarNames, List.flatMap_nil, List.append_nil]
            exact hdomc x w hx
      | cons r rs =>
          obtain ⟨e, hemem, hsube, hcove, hdome, hnde⟩ :=
            ih F σ (fun c2 hc2 => hall c2 (List.mem_cons_of_mem c hc2))
          obtain ⟨m, hmerge, hsubm, hiff, hndm⟩ :=
            merge_submap hsubc hsube hndc hnde
          refine ⟨m, ?_, hsubm, ?_, ?_, hndm⟩
          · show m ∈ findAllBindings (c :: r :: rs) F
            simp only [findAllBindings]
            rw [List.mem_flatMap]
            exact ⟨bc, hmemc, List.mem_filterMap.mpr ⟨e, hemem, hmerge⟩⟩
          · intro x hx
            rw [hiff x]
            rw [bodyVarNames_cons, List.mem_append] at hx
            rcases hx with hx | hx
            · exact Or.inl (hcovc x hx)
            · exact Or.inr (hcove x hx)
          · intro x w hx
            have hs : (List.lookup x m).isSome = true := by rw [hx]; rfl
            rw [hiff x] at hs
            rw [bodyVarNames_cons, List.mem_append]
            rcases hs with hs | hs
            · obtain ⟨w2, hw2⟩ := Option.isSome_iff_exists.mp hs
              exact Or.inl (hdomc x w2 hw2)
            · obtain ⟨w2, hw2⟩ := Option.isSome_iff_exists.mp hs
              exact Or.inr (hdome x w2 hw2)

/-! ### Fixpoint closedness of a pass -/

theorem foldl_fixed_of_grows {β : Type} (step : List Fact → β → List Fact)
    (hstep : ∀ acc x, Grows acc (step acc x)) :
    ∀ (xs : List β) (acc : List Fact), xs.foldl step acc = acc →
      ∀ x ∈ xs, step acc x = acc := by
  intro xs
  induction xs with
  | nil =>
      intro acc _ x hx
      simp at hx
  | cons y ys ihy =>
      intro acc hfold x hx
      have hg1 : Grows acc (step acc y) := hstep acc y
      have hg2 : Grows (step acc y) (List.foldl step (step acc y) ys) :=
        grows_foldl step hstep ys (step acc y)
      have hfold2 : List.foldl step (step acc y) ys = acc := hfold
      have hle1 := grows_length_le hg1
      have hle2 := grows_length_le hg2
      rw [hfold2] at hle2
      have heq1 : step acc y = acc :=
        grows_eq_of_length hg1 (Nat.le_antisymm hle2 hle1)
      rcases List.mem_cons.mp hx with hx | hx
      · rw [hx]
        exact heq1
      · rw [heq1] at hfold2
        exact ihy acc hfold2 x hx

theorem addNew_eq_imp {acc : List Fact} {nfs : List Fact}
    (h : addNewFacts acc nfs = acc) : ∀ nf ∈ nfs, memFact nf acc = true := by
  intro nf hnf
  have hstep : ∀ (a : List Fact) (x : Fact),
      Grows a (if memFact x a then a else a ++ [x]) := by
    intro a x
    by_cases hm : memFact x a
    · simp [hm]
      exact grows_refl a
    · simp [hm]
      exact ⟨[x], rfl⟩
  have := foldl_fixed_of_grows _ hstep nfs acc h nf hnf
  by_cases hm : memFact nf acc
  · exact hm
  · rw [if_neg hm] at this
    have : acc.length + 1 = acc.length := by
      conv_rhs => rw [← this]
      simp
    omega

theorem onePass_fixed {rules : List Rule} {R : List Fact}
    (hfix : onePass rules R = R) :
    ∀ r ∈ rules, addNewFacts R (applySingleRule r R) = R := by
  intro r hr
  exact foldl_fixed_of_grows _ (fun acc r2 => grows_addNewFacts acc _) rules R hfix r hr

/-- The per-binding step of `_apply_single_rule`'s loop. -/
def applyStep (r : Rule) (knownFacts : List Fact) (newFacts : List Fact)
    (bindings : Bindings) : List Fact :=
  match instantiateFact r.head bindings with
  | none => newFacts
  | some newFact =>
      if ¬ memFact newFact knownFacts = true ∧ ¬ memFact newFact newFacts = true then
        newFacts ++ [newFact]
      else newFacts

theorem applySingleRule_eq_foldl (r : Rule) (F : List Fact) :
    applySingleRule r F = (findAllBindings r.body F).foldl (applyStep r F) [] := rfl

theorem applyStep_grows (r : Rule) (F : List Fact) :
    ∀ acc b, Grows acc (applyStep r F acc b) := by
  intro acc b
  unfold applyStep
  cases instantiateFact r.head b with
  | none => exact grows_refl acc
  | some nf =>
      by_cases hc : ¬ memFact nf F = true ∧ ¬ memFact nf acc = true
      · simp only [if_pos hc]
        exact ⟨[nf], rfl⟩
      · simp only [if_neg hc]
        exact grows_refl acc

theorem applySingle_covers {r : Rule} {F : List Fact} {b : Bindings} {h : Fact}
    (hb : b ∈ findAllBindings r.body F) (hi : instantiateFact r.head b = some h) :
    memFact h F = true ∨ memFact h (applySingleRule r F) = true := by
  rw [applySingleRule_eq_foldl]
  have main : ∀ (bs : List Bindings) (acc : List Fact), b ∈ bs →
      memFact h F = true ∨ memFact h (bs.foldl (applyStep r F) acc) = true := by
    intro bs
    induction bs with
    | nil =>
        intro acc hmem
        simp at hmem
    | cons b0 bs ih =>
        intro acc hmem
        rcases List.mem_cons.mp hmem with hb0 | hb0
        · subst hb0
          by_cases hF : memFact h F = true
          · exact Or.inl hF
          · refine Or.inr ?_
            have hstep : memFact h (applyStep r F acc b) = true := by
              unfold applyStep
              simp only [hi]
              by_cases hacc : memFact h acc = true
              · by_cases hc : ¬ memFact h F = true ∧ ¬ memFact h acc = true
                · exact absurd hacc hc.2
                · rw [if_neg hc]
                  exact hacc
              · rw [if_pos ⟨hF, hacc⟩]
                exact memFact_of_mem (List.mem_append_right acc (by simp))
            exact memFact_of_grows hstep
              (grows_foldl _ (applyStep_grows r F) bs (applyStep r F acc b))
        · exact ih (applyStep r F acc b0) hb0
  exact main (findAllBindings r.body F) [] hb

theorem fixpoint_closed {rules : List Rule} {R : List Fact}
    (hfix : onePass rules R = R) :
    ∀ r ∈ rules, ∀ b ∈ findAllBindings r.body R, ∀ h,
      instantiateFact r.head b = some h → memFact h R = true := by
  intro r hr b hb h hi
  rcases applySingle_covers hb hi with hc | hc
  · exact hc
  · obtain ⟨g, hg, hge⟩ := memFact_spec.mp hc
    have hgR := addNew_eq_imp (onePass_fixed hfix r hr) g hg
    obtain ⟨g2, hg2, hg2e⟩ := memFact_spec.mp hgR
    exact memFact_spec.mpr ⟨g2, hg2, factEq_trans hg2e hge⟩

/-! ### Head instantiation from an agreeing merged binding -/

theorem instantiate_eq_of_agree {head : Pattern} {σ b : Bindings} {h : Fact}
    (hm : patMatchesB σ head h = true) (hsub : Submap σ b)
    (hcov : ∀ x ∈ patVarNames head, (List.lookup x b).isSome = true) :
    instantiateFact head b = some h := by
  have hm' := hm
  simp only [patMatchesB, Bool.and_eq_true, beq_iff_eq] at hm'
  obtain ⟨⟨hft, hs⟩, ho⟩ := hm'
  have hsubj : instantiateTerm b head.subject = some h.subject := by
    cases hterm : head.subject with
    | const c =>
        rw [hterm] at hs
        simp only [termMatchesB, beq_iff_eq] at hs
        simp [instantiateTerm, hs]
    | var v =>
        rw [hterm] at hs
        simp only [termMatchesB, beq_iff_eq] at hs
        have hvmem : v.name ∈ patVarNames head := by
          simp [patVarNames, hterm, termVarNames]
        obtain ⟨w, hw⟩ := Option.isSome_iff_exists.mp (hcov v.name hvmem)
        have hsw := hsub v.name w hw
        rw [hs] at hsw
        simp only [instantiateTerm]
        rw [hw, Option.some.inj hsw]
  have hobj : instantiateTerm b head.object = some h.object := by
    cases hterm : head.object with
    | const c =>
        rw [hterm] at ho
        simp only [termMatchesB, beq_iff_eq] at ho
        simp [instantiateTerm, ho]
    | var v =>
        rw [hterm] at ho
        simp only [termMatchesB, beq_iff_eq] at ho
        have hvmem : v.name ∈ patVarNames head := by
          simp [patVarNames, hterm, termVarNames]
        obtain ⟨w, hw⟩ := Option.isSome_iff_exists.mp (hcov v.name hvmem)
        have hsw := hsub v.name w hw
        rw [ho] at hsw
        simp only [instantiateTerm]
        rw [hw, Option.some.inj hsw]
  unfold instantiateFact
  rw [hsubj, hobj]
  rcases h with ⟨t2, s2, o2⟩
  simp only [Option.some.injEq]
  simp only at hft
  rw [hft]

/-! ### Entity-value invariants: every fact the engine manipulates has entity
objects in both positions (stored rows are materialized as entities, and plain
rules only rebind entity values). -/

/-- All facts of a list are entity-valued. -/
def EntFacts (l : List Fact) : Prop :=
  ∀ f ∈ l, entFact f = true

theorem unifyFacts_values {c : Pattern} {f : Fact} {b : Bindings}
    (h : unifyFacts c f = some b) :
    ∀ x w, List.lookup x b = some w → w = f.subject ∨ w = f.object := by
  intro x w hx
  rcases unifyFacts_shape h with hb | ⟨n, hb⟩ | ⟨n, hb⟩ | ⟨n1, n2, hb⟩
  · rw [hb] at hx
    simp [List.lookup] at hx
  · rw [hb] at hx
    exact Or.inl (lookup_single_some hx).2
  · rw [hb] at hx
    exact Or.inr (lookup_single_some hx).2
  · rw [hb] at hx
    by_cases hk : (x == n1) = true
    · simp only [List.lookup, hk] at hx
      exact Or.inl (Option.some.inj hx).symm
    · simp only [List.lookup, hk] at hx
      exact Or.inr (lookup_single_some hx).2

theorem findBindings_values {c : Pattern} {F : List Fact} {b : Bindings}
    (hb : b ∈ findBindingsForCondition c F) :
    ∀ x w, List.lookup x b = some w → ∃ f ∈ F, w = f.subject ∨ w = f.object := by
  intro x w hx
  unfold findBindingsForCondition at hb
  rw [List.mem_filterMap] at hb
  obtain ⟨f, hf, hfb⟩ := hb
  by_cases ht : (f.ftype == c.ftype) = true
  · rw [if_pos ht] at hfb
    exact ⟨f, hf, unifyFacts_values hfb x w hx⟩
  · rw [if_neg ht] at hfb
    exact absurd hfb (by simp)

theorem findAll_values :
    ∀ (body : List Pattern) (F : List Fact) (b : Bindings),
      b ∈ findAllBindings body F →
      ∀ x w, List.lookup x b = some w → ∃ f ∈ F, w = f.subject ∨ w = f.object := by
  intro body
  induction body with
  | nil =>
      intro F b hb x w hx
      simp only [findAllBindings, List.mem_singleton] at hb
      rw [hb] at hx
      simp [List.lookup] at hx
  | cons c rest ih =>
      intro F b hb x w hx
      cases rest with
      | nil =>
          simp only [findAllBindings] at hb
          exact findBindings_values hb x w hx
      | cons r rs =>
          simp only [findAllBindings] at hb
          rw [List.mem_flatMap] at hb
          obtain ⟨bc, hbc, hb2⟩ := hb
          rw [List.mem_filterMap] at hb2
          obtain ⟨e, he, hme⟩ := hb2
          have hlook := mergeAux_some_lookup e bc b hme x
          rw [hx] at hlook
          cases hcb : List.lookup x bc with
          | some v =>
              simp only [hcb] at hlook
              rw [Option.some.inj hlook]
              exact findBindings_values hbc x v hcb
          | none =>
              simp only [hcb] at hlook
              exact ih F e he x w hlook.symm

theorem storedFactList_ent (store : Store) : EntFacts (storedFactList store) := by
  intro f hf
  unfold storedFactList at hf
  rw [List.mem_map] at hf
  obtain ⟨row, _, hrow⟩ := hf
  rw [← hrow]
  simp [entFact, Value.isObj]

theorem loadStored_ent (isInferred : String → Bool) (qSat : QNode → Nat → Bool)
    (store : Store) (p : Pattern) :
    EntFacts (loadStoredFactsForPattern isInferred qSat store p) := by
  intro f hf
  unfold loadStoredFactsForPattern at hf
  by_cases hinf : isInferred p.ftype
  · rw [if_pos hinf] at hf
    simp at hf
  · rw [if_neg hinf] at hf
    rw [List.mem_map] at hf
    obtain ⟨row, _, hrow⟩ := hf
    rw [← hrow]
    simp [entFact, Value.isObj]

theorem dedup_subset {l : List Fact} {f : Fact} (h : f ∈ dedupFacts l) : f ∈ l := by
  unfold dedupFacts at h
  have main : ∀ (xs : List Fact) (acc : List Fact),
      f ∈ xs.foldl (fun a g => if memFact g a then a else a ++ [g]) acc →
      f ∈ acc ∨ f ∈ xs := by
    intro xs
    induction xs with
    | nil =>
        intro acc hf
        exact Or.inl hf
    | cons x xs ihx =>
        intro acc hf
        simp only [List.foldl_cons] at hf
        by_cases hm : memFact x acc
        · rw [if_pos hm] at hf
          rcases ihx acc hf with h2 | h2
          · exact Or.inl h2
          · exact Or.inr (List.mem_cons_of_mem x h2)
        · rw [if_neg hm] at hf
          rcases ihx (acc ++ [x]) hf with h2 | h2
          · rcases List.mem_append.mp h2 with h3 | h3
            · exact Or.inl h3
            · exact Or.inr (List.mem_cons.mpr (Or.inl (by simpa using h3)))
          · exact Or.inr (List.mem_cons_of_mem x h2)
  rcases main l [] h with h2 | h2
  · simp at h2
  · exact h2

theorem targetedBase_ent (isInferred : String → Bool) (qSat : QNode → Nat → Bool)
    (store : Store) (rules : List Rule) (target : Pattern) :
    EntFacts (buildTargetedFactBase isInferred qSat store rules target) := by
  intro f hf
  unfold buildTargetedFactBase at hf
  have hf2 := dedup_subset hf
  rw [List.mem_flatMap] at hf2
  obtain ⟨r, _, hf3⟩ := hf2
  rw [List.mem_flatMap] at hf3
  obtain ⟨c, _, hf4⟩ := hf3
  exact loadStored_ent isInferred qSat store _ f hf4

theorem instantiate_ent {head : Pattern} {b : Bindings} {f : Fact}
    (hvals : ∀ x w, List.lookup x b = some w → w.isObj = true)
    (hps : plainTerm head.subject = true) (hpo : plainTerm head.object = true)
    (hi : instantiateFact head b = some f) : entFact f = true := by
  unfold instantiateFact at hi
  cases hs : instantiateTerm b head.subject with
  | none =>
      rw [hs] at hi
      simp at hi
  | some sv =>
      cases ho : instantiateTerm b head.object with
      | none =>
          rw [hs, ho] at hi
          simp at hi
      | some ov =>
          rw [hs, ho] at hi
          have hf : f = ⟨head.ftype, sv, ov⟩ := (Option.some.inj hi).symm
          have hsv : sv.isObj = true := by
            cases hterm : head.subject with
            | const c =>
                rw [hterm] at hs hps
                simp only [instantiateTerm, Option.some.injEq] at hs
                rcases c with pk | pk
                · rw [← hs]
                  rfl
                · simp [plainTerm] at hps
            | var v =>
                rw [hterm] at hs
                simp only [instantiateTerm] at hs
                exact hvals v.name sv hs
          have hov : ov.isObj = true := by
            cases hterm : head.object with
            | const c =>
                rw [hterm] at ho hpo
                simp only [instantiateTerm, Option.some.injEq] at ho
                rcases c with pk | pk
                · rw [← ho]
                  rfl
                · simp [plainTerm] at hpo
            | var v =>
                rw [hterm] at ho
                simp only [instantiateTerm] at ho
                exact hvals v.name ov ho
          rw [hf]
          simp [entFact, hsv, hov]

theorem addNew_mem {acc nfs : List Fact} {f : Fact}
    (h : f ∈ addNewFacts acc nfs) : f ∈ acc ∨ f ∈ nfs := by
  unfold addNewFacts at h
  have main : ∀ (xs : List Fact) (a : List Fact),
      f ∈ xs.foldl (fun a2 g => if memFact g a2 then a2 else a2 ++ [g]) a →
      f ∈ a ∨ f ∈ xs := by
    intro xs
    induction xs with
    | nil =>
        intro a hf
        exact Or.inl hf
    | cons x xs ihx =>
        intro a hf
        by_cases hm : memFact x a
        · rcases ihx a (by simpa [hm] using hf) with h2 | h2
          · exact Or.inl h2
          · exact Or.inr (List.mem_cons_of_mem x h2)
        · rcases ihx (a ++ [x]) (by simpa [hm] using hf) with h2 | h2
          · rcases List.mem_append.mp h2 with h3 | h3
            · exact Or.inl h3
            · exact Or.inr (List.mem_cons.mpr (Or.inl (by simpa using h3)))
          · exact Or.inr (List.mem_cons_of_mem x h2)
  exact main nfs acc h

theorem applySingle_mem_inst {r : Rule} {F : List Fact} {f : Fact}
    (h : f ∈ applySingleRule r F) :
    ∃ b ∈ findAllBindings r.body F, instantiateFact r.head b = some f := by
  rw [applySingleRule_eq_foldl] at h
  have main : ∀ (bs : List Bindings) (acc : List Fact),
      f ∈ bs.foldl (applyStep r F) acc →
      f ∈ acc ∨ ∃ b ∈ bs, instantiateFact r.head b = some f := by
    intro bs
    induction bs with
    | nil =>
        intro acc hf
        exact Or.inl hf
    | cons b0 bs ihb =>
        intro acc hf
        rcases ihb (applyStep r F acc b0) hf with h2 | h2
        · unfold applyStep at h2
          cases hi : instantiateFact r.head b0 with
          | none =>
              rw [hi] at h2
              exact Or.inl h2
          | some nf =>
              simp only [hi] at h2
              by_cases hc : ¬ memFact nf F = true ∧ ¬ memFact nf acc = true
              · rw [if_pos hc] at h2
                rcases List.mem_append.mp h2 with h3 | h3
                · exact Or.inl h3
                · refine Or.inr ⟨b0, List.mem_cons_self b0 bs, ?_⟩
                  rw [hi]
                  simp only [List.mem_singleton] at h3
                  rw [h3]
              · rw [if_neg hc] at h2
                exact Or.inl h2
        · obtain ⟨b2, hb2, hi2⟩ := h2
          exact Or.inr ⟨b2, List.mem_cons_of_mem b0 hb2, hi2⟩
  rcases main (findAllBindings r.body F) [] h with h2 | h2
  · simp at h2
  · exact h2

theorem applySingle_ent {r : Rule} {F : List Fact} (hent : EntFacts F)
    (hplain : plainRule r = true) : EntFacts (applySingleRule r F) := by
  intro f hf
  obtain ⟨b, hb, hi⟩ := applySingle_mem_inst hf
  have hvals : ∀ x w, List.lookup x b = some w → w.isObj = true := by
    intro x w hx
    obtain ⟨g, hg, hw⟩ := findAll_values r.body F b hb x w hx
    have := hent g hg
    simp only [entFact, Bool.and_eq_true] at this
    rcases hw with hw | hw <;> rw [hw]
    · exact this.1
    · exact this.2
  simp only [plainRule, Bool.and_eq_true] at hplain
  exact instantiate_ent hvals hplain.1.1 hplain.1.2 hi

theorem onePass_ent {rules : List Rule} {F : List Fact}
    (hplain : ∀ r ∈ rules, plainRule r = true) (hent : EntFacts F) :
    EntFacts (onePass rules F) := by
  unfold onePass
  have main : ∀ (rs : List Rule) (acc : List Fact),
      (∀ r ∈ rs, plainRule r = true) → EntFacts acc →
      EntFacts (rs.foldl
        (fun allFacts ruleObj => addNewFacts allFacts (applySingleRule ruleObj allFacts))
        acc) := by
    intro rs
    induction rs with
    | nil =>
        intro acc _ hacc
        exact hacc
    | cons r rs ihr =>
        intro acc hp hacc
        refine ihr (addNewFacts acc (applySingleRule r acc))
          (fun r2 hr2 => hp r2 (List.mem_cons_of_mem r hr2)) ?_
        intro f hf
        rcases addNew_mem hf with h2 | h2
        · exact hacc f h2
        · exact applySingle_ent hacc (hp r (List.mem_cons_self r rs)) f h2
  exact main rules F hplain hent

theorem applyRulesLoop_ent {rules : List Rule}
    (hplain : ∀ r ∈ rules, plainRule r = true) :
    ∀ (fuel : Nat) (F : List Fact), EntFacts F →
      EntFacts (applyRulesLoop rules fuel F) := by
  intro fuel
  induction fuel with
  | zero =>
      intro F hF
      exact hF
  | succ n ihn =>
      intro F hF
      show EntFacts (applyRulesLoop rules (n + 1) F)
      unfold applyRulesLoop
      by_cases h : (onePass rules F).length = F.length
      · simp only [h, if_pos rfl]
        exact onePass_ent hplain hF
      · simp only [if_neg h]
        exact ihn (onePass rules F) (onePass_ent hplain hF)

/-! ### From derivations to the engine's working set -/

theorem forall₂_exists_right {α β : Type} {R : α → β → Prop} :
    ∀ {l1 : List α} {l2 : List β}, List.Forall₂ R l1 l2 →
      ∀ {a : α}, a ∈ l1 → ∃ b ∈ l2, R a b := by
  intro l1 l2 hf
  induction hf with
  | nil =>
      intro a ha
      simp at ha
  | cons hR _ ih =>
      intro a ha
      rcases List.mem_cons.mp ha with ha | ha
      · exact ⟨_, List.mem_cons_self _ _, ha ▸ hR⟩
      · obtain ⟨b, hb, hRb⟩ := ih ha
        exact ⟨b, List.mem_cons_of_mem _ hb, hRb⟩

theorem lookup_some_mem_pair {x : String} {w : Value} {b : Bindings}
    (h : List.lookup x b = some w) : (x, w) ∈ b := by
  induction b with
  | nil => simp [List.lookup] at h
  | cons p t ih =>
      rcases p with ⟨a, v⟩
      by_cases hk : (x == a) = true
      · simp only [List.lookup, hk] at h
        have hxa : x = a := by simpa using hk
        have hwv : w = v := (Option.some.inj h).symm
        rw [hxa, hwv]
        exact List.mem_cons_self _ _
      · simp only [List.lookup, hk] at h
        exact List.mem_cons_of_mem _ (ih h)

theorem patMatchesB_var_lookup {σ : Bindings} {c : Pattern} {f : Fact} {x : String}
    (hx : x ∈ patVarNames c) (hm : patMatchesB σ c f = true) :
    List.lookup x σ = some f.subject ∨ List.lookup x σ = some f.object := by
  simp only [patMatchesB, Bool.and_eq_true] at hm
  obtain ⟨⟨_, hs⟩, ho⟩ := hm
  unfold patVarNames at hx
  rcases List.mem_append.mp hx with hx | hx
  · cases hterm : c.subject with
    | const cv =>
        rw [hterm] at hx
        simp [termVarNames] at hx
    | var v =>
        rw [hterm] at hx hs
        simp only [termVarNames, List.mem_singleton] at hx
        simp only [termMatchesB, beq_iff_eq] at hs
        rw [hx]
        exact Or.inl hs
  · cases hterm : c.object with
    | const cv =>
        rw [hterm] at hx
        simp [termVarNames] at hx
    | var v =>
        rw [hterm] at hx ho
        simp only [termVarNames, List.mem_singleton] at hx
        simp only [termMatchesB, beq_iff_eq] at ho
        rw [hx]
        exact Or.inr ho

theorem bodyVar_to_condition {x : String} {body : List Pattern}
    (hx : x ∈ bodyVarNames body) : ∃ c ∈ body, x ∈ patVarNames c := by
  unfold bodyVarNames at hx
  rw [List.mem_flatMap] at hx
  exact hx

theorem derives_ent {rules : List Rule} {base : List Fact}
    (hplain : ∀ r ∈ rules, plainRule r = true) (hbase : EntFacts base) :
    ∀ f, Derives rules base f → entFact f = true := by
  intro f hd
  induction hd with
  | base hf => exact hbase _ hf
  | @step r σ bodyFacts h hr hforall hderiv hdom hhead ih =>
      have hpr := hplain r hr
      simp only [plainRule, Bool.and_eq_true] at hpr
      have hposition : ∀ (t : FTerm) (w : Value), plainTerm t = true →
          termMatchesB σ t w = true → w.isObj = true := by
        intro t w hp hmatch
        cases t with
        | const cv =>
            simp only [termMatchesB, beq_iff_eq] at hmatch
            rcases cv with pk | pk
            · rw [← hmatch]
              rfl
            · simp [plainTerm] at hp
        | var v =>
            simp only [termMatchesB, beq_iff_eq] at hmatch
            have hmem := lookup_some_mem_pair hmatch
            have hxdom := hdom (v.name, w) hmem
            obtain ⟨c, hc, hcx⟩ := bodyVar_to_condition hxdom
            obtain ⟨fc, hfc, hmc⟩ := forall₂_exists_right hforall hc
            have hvals := patMatchesB_var_lookup hcx hmc
            have hent := ih fc hfc
            simp only [entFact, Bool.and_eq_true] at hent
            rcases hvals with hv | hv <;> rw [hmatch] at hv
            · rw [Option.some.inj hv]
              exact hent.1
            · rw [Option.some.inj hv]
              exact hent.2
      have hm' := hhead
      simp only [patMatchesB, Bool.and_eq_true] at hm'
      obtain ⟨⟨_, hs⟩, ho⟩ := hm'
      have h1 := hposition r.head.subject h.subject hpr.1.1 hs
      have h2 := hposition r.head.object h.object hpr.1.2 ho
      simp [entFact, h1, h2]

theorem stored_match_loaded {isInf : String → Bool} {qSat : QNode → Nat → Bool}
    {store : Store} {c target : Pattern} {σ : Bindings} {f : Fact}
    (htypes : ∀ row ∈ store, isInf row.1 = false)
    (hps : plainTerm c.subject = true) (hpo : plainTerm c.object = true)
    (hf : f ∈ storedFactList store) (hm : patMatchesB σ c f = true) :
    f ∈ loadStoredFactsForPattern isInf qSat store
      (createTargetedCondition c target) := by
  unfold storedFactList at hf
  rw [List.mem_map] at hf
  obtain ⟨row, hrow, hfr⟩ := hf
  have hm' := hm
  simp only [patMatchesB, Bool.and_eq_true, beq_iff_eq] at hm'
  obtain ⟨⟨hft, hs⟩, ho⟩ := hm'
  have hftype : c.ftype = row.1 := by
    rw [hft, ← hfr]
  have htargetft : (createTargetedCondition c target).ftype = c.ftype := rfl
  have hinf : isInf (createTargetedCondition c target).ftype = false := by
    rw [htargetft, hftype]
    exact htypes row hrow
  unfold loadStoredFactsForPattern
  rw [if_neg (by rw [hinf]; exact Bool.false_ne_true)]
  rw [List.mem_map]
  refine ⟨row, List.mem_filter.mpr ⟨hrow, ?_⟩, hfr⟩
  have hsubfilter : termRowFilter qSat (createTargetedCondition c target).subject
      row.2.1 = true := by
    cases hterm : c.subject with
    | const cv =>
        have : (createTargetedCondition c target).subject = .const cv := by
          simp [createTargetedCondition, hterm]
        rw [this]
        rw [hterm] at hs
        simp only [termMatchesB, beq_iff_eq] at hs
        have : cv.key = row.2.1 := by
          rw [hs, ← hfr]
          rfl
        simp [termRowFilter, this]
    | var v =>
        rw [hterm] at hps
        have hnone : v.whereQ = none := by
          simpa [plainTerm, Option.isNone_iff_eq_none] using hps
        have : (createTargetedCondition c target).subject = .var v ∨
            (createTargetedCondition c target).subject = .var ⟨"hidden", none⟩ := by
          simp only [createTargetedCondition, hterm]
          by_cases hv : varInPattern v.name target
          · exact Or.inl (by simp [hv])
          · exact Or.inr (by simp [hv])
        rcases this with h2 | h2 <;> rw [h2] <;> simp [termRowFilter, hnone]
  have hobjfilter : termRowFilter qSat (createTargetedCondition c target).object
      row.2.2 = true := by
    cases hterm : c.object with
    | const cv =>
        have : (createTargetedCondition c target).object = .const cv := by
          simp [createTargetedCondition, hterm]
        rw [this]
        rw [hterm] at ho
        simp only [termMatchesB, beq_iff_eq] at ho
        have : cv.key = row.2.2 := by
          rw [ho, ← hfr]
          rfl
        simp [termRowFilter, this]
    | var v =>
        rw [hterm] at hpo
        have hnone : v.whereQ = none := by
          simpa [plainTerm, Option.isNone_iff_eq_none] using hpo
        have : (createTargetedCondition c target).object = .var v ∨
            (createTargetedCondition c target).object = .var ⟨"hidden", none⟩ := by
          simp only [createTargetedCondition, hterm]
          by_cases hv : varInPattern v.name target
          · exact Or.inl (by simp [hv])
          · exact Or.inr (by simp [hv])
        rcases this with h2 | h2 <;> rw [h2] <;> simp [termRowFilter, hnone]
  have hrowft : (row.1 == (createTargetedCondition c target).ftype) = true := by
    rw [htargetft, hftype]
    simp
  simp only [Bool.and_eq_true]
  exact ⟨⟨hrowft, hsubfilter⟩, hobjfilter⟩

theorem memFact_cons {f x : Fact} {xs : List Fact} :
    memFact f (x :: xs) = (factEq x f || memFact f xs) := by
  simp [memFact]

theorem dedup_memFact {l : List Fact} {f : Fact} (h : memFact f l = true) :
    memFact f (dedupFacts l) = true := by
  unfold dedupFacts
  have main : ∀ (xs : List Fact) (acc : List Fact),
      (memFact f acc = true ∨ memFact f xs = true) →
      memFact f (xs.foldl (fun a g => if memFact g a then a else a ++ [g]) acc)
        = true := by
    intro xs
    induction xs with
    | nil =>
        intro acc hf
        rcases hf with hf | hf
        · exact hf
        · simp [memFact] at hf
    | cons x xs ihx =>
        intro acc hf
        simp only [List.foldl_cons]
        by_cases hm : memFact x acc
        · rw [if_pos hm]
          refine ihx acc ?_
          rcases hf with hf | hf
          · exact Or.inl hf
          · rw [memFact_cons, Bool.or_eq_true] at hf
            rcases hf with hf2 | hf2
            · obtain ⟨y, hy, hyx⟩ := memFact_spec.mp hm
              exact Or.inl (memFact_spec.mpr ⟨y, hy, factEq_trans hyx hf2⟩)
            · exact Or.inr hf2
        · rw [if_neg hm]
          refine ihx (acc ++ [x]) ?_
          rcases hf with hf | hf
          · exact Or.inl (memFact_of_grows hf ⟨[x], rfl⟩)
          · rw [memFact_cons, Bool.or_eq_true] at hf
            rcases hf with hf2 | hf2
            · exact Or.inl (memFact_spec.mpr
                ⟨x, List.mem_append_right acc (by simp), hf2⟩)
            · exact Or.inr hf2
  exact main l [] (Or.inr h)

/-! ### The completeness theorem for the targeted engine -/

theorem derives_nil {base : List Fact} {f : Fact} (h : Derives [] base f) :
    f ∈ base := by
  cases h with
  | base hf => exact hf
  | step hr _ _ _ _ => exact absurd hr (List.not_mem_nil _)

theorem derives_in_engine
    (isInf : String → Bool) (qSat : QNode → Nat → Bool) (store : Store)
    (relevantRules : List Rule) (qpat : Pattern)
    (htypes : ∀ row ∈ store, isInf row.1 = false)
    (hplain : ∀ r ∈ relevantRules, plainRule r = true)
    (hfix : onePass relevantRules
        (applyTargetedRules relevantRules
          (buildTargetedFactBase isInf qSat store relevantRules qpat))
      = applyTargetedRules relevantRules
          (buildTargetedFactBase isInf qSat store relevantRules qpat)) :
    ∀ f, Derives relevantRules (storedFactList store) f →
      memFact f (applyTargetedRules relevantRules
          (buildTargetedFactBase isInf qSat store relevantRules qpat)) = true
        ∨ f ∈ storedFactList store := by
  set B := buildTargetedFactBase isInf qSat store relevantRules qpat with hB
  set R := applyTargetedRules relevantRules B with hR
  have hBent : EntFacts B := by
    rw [hB]
    exact targetedBase_ent isInf qSat store relevantRules qpat
  have hRent : EntFacts R := by
    rw [hR]
    exact applyRulesLoop_ent hplain 100 B hBent
  have hgrow : Grows B R := by
    rw [hR]
    exact grows_applyRulesLoop relevantRules 100 B
  intro f hd
  induction hd with
  | base hf => exact Or.inr hf
  | @step r σ bodyFacts h hr hforall hderiv hdom hhead ih =>
      left
      have hallR : ∀ c ∈ r.body, ∃ g ∈ R, patMatchesB σ c g = true := by
        intro c hc
        obtain ⟨fc, hfc, hmc⟩ := forall₂_exists_right hforall hc
        have hfcent : entFact fc = true :=
          derives_ent hplain (storedFactList_ent store) fc (hderiv fc hfc)
        have hfcR : fc ∈ R := by
          rcases ih fc hfc with hmem | hstored
          · exact mem_of_memFact_ent hfcent hRent hmem
          · have hpr := hplain r hr
            simp only [plainRule, Bool.and_eq_true] at hpr
            have hpc := hpr.2
            rw [List.all_eq_true] at hpc
            have hpc2 := hpc c hc
            simp only [Bool.and_eq_true] at hpc2
            have hload := @stored_match_loaded isInf qSat store c qpat σ fc
              htypes hpc2.1 hpc2.2 hstored hmc
            have hmemB : memFact fc B = true := by
              rw [hB]
              unfold buildTargetedFactBase
              apply dedup_memFact
              apply memFact_of_mem
              rw [List.mem_flatMap]
              exact ⟨r, hr, List.mem_flatMap.mpr ⟨c, hc, hload⟩⟩
            exact mem_of_memFact_ent hfcent hRent (memFact_of_grows hmemB hgrow)
        exact ⟨fc, hfcR, hmc⟩
      obtain ⟨b, hbmem, hsub, hcov, hdom2, hnd⟩ :=
        findAllBindings_complete r.body R σ hallR
      have hheadcov : ∀ x ∈ patVarNames r.head, (List.lookup x b).isSome = true := by
        intro x hx
        have hlookσ := patMatchesB_var_lookup hx hhead
        have hxdom : x ∈ bodyVarNames r.body := by
          rcases hlookσ with hl | hl
          · exact hdom (x, h.subject) (lookup_some_mem_pair hl)
          · exact hdom (x, h.object) (lookup_some_mem_pair hl)
        exact hcov x hxdom
      have hinst := instantiate_eq_of_agree hhead hsub hheadcov
      exact fixpoint_closed hfix r hr b hbmem h hinst

/-- C1 (amended): for a registered rule set whose relevant rules (those whose
head type equals the requested inferred type) are plain (entity constants and
unconstrained variables, purely conjunctive bodies), whose targeted
forward-chaining run reaches its fixpoint within the iteration cap, and a
store holding only storable-flavor rows, `_get_facts_for_pattern` returns
every fact of the requested type derivable from the currently stored facts
using those relevant rules.  (Derivations needing a rule whose head type
differs from the requested type — chained inferred types — are not covered:
the source selects only head-type-matching rules, see the counterexample.) -/
theorem c1_rule_engine_completeness_amended
    (isInf : String → Bool) (qSat : QNode → Nat → Bool) (store : Store)
    (rules : List Rule) (qpat : Pattern)
    (hq : isInf qpat.ftype = true)
    (htypes : ∀ row ∈ store, isInf row.1 = false)
    (hplain : ∀ r ∈ rules.filter (fun r => r.head.ftype == qpat.ftype),
      plainRule r = true)
    (hfix : onePass (rules.filter (fun r => r.head.ftype == qpat.ftype))
        (applyTargetedRules (rules.filter (fun r => r.head.ftype == qpat.ftype))
          (buildTargetedFactBase isInf qSat store
            (rules.filter (fun r => r.head.ftype == qpat.ftype)) qpat))
      = applyTargetedRules (rules.filter (fun r => r.head.ftype == qpat.ftype))
          (buildTargetedFactBase isInf qSat store
            (rules.filter (fun r => r.head.ftype == qpat.ftype)) qpat)) :
    ∀ f, Derives (rules.filter (fun r => r.head.ftype == qpat.ftype))
        (storedFactList store) f →
      f.ftype = qpat.ftype →
      memFact f (getFactsForPattern isInf qSat store rules qpat) = true := by
  intro f hd hft
  have hnotstored : f ∉ storedFactList store := by
    intro hf
    unfold storedFactList at hf
    rw [List.mem_map] at hf
    obtain ⟨row, hrow, hfr⟩ := hf
    have hrowinf : isInf f.ftype = false := by
      rw [← hfr]
      exact htypes row hrow
    rw [hft, hq] at hrowinf
    exact absurd hrowinf (by simp)
  rcases derives_in_engine isInf qSat store
      (rules.filter (fun r => r.head.ftype == qpat.ftype)) qpat htypes hplain hfix
      f hd with hmem | hstored
  · by_cases hrel : (rules.filter (fun r => r.head.ftype == qpat.ftype)).isEmpty
    · exfalso
      have hempt : rules.filter (fun r => r.head.ftype == qpat.ftype) = [] := by
        rwa [List.isEmpty_iff] at hrel
      rw [hempt] at hd
      exact hnotstored (derives_nil hd)
    · have hrelf : (rules.filter (fun r => r.head.ftype == qpat.ftype)).isEmpty
          = false := by
        rwa [Bool.not_eq_true] at hrel
      unfold getFactsForPattern
      simp only [hrelf, Bool.false_eq_true, if_false]
      apply memFact_append_right
      unfold applyRulesWithHiddenVariables
      obtain ⟨g, hg, hge⟩ := memFact_spec.mp hmem
      refine memFact_spec.mpr ⟨g, ?_, hge⟩
      rw [List.mem_filter]
      refine ⟨hg, ?_⟩
      have hgf : g.ftype = f.ftype := factEq_ftype hge
      simp [hgf, hft]
  · exact absurd hstored hnotstored

/-- C1 witness data: the inferred-flavor registry of the grandparent
scenario. -/
def c1wIsInf : String → Bool := fun t => t == "GrandparentOf"

/-- C1 witness data: two stored parent rows. -/
def c1wStore : Store := [("ParentOf", 1, 2), ("ParentOf", 2, 3)]

/-- C1 witness data: `GrandparentOf(g, c) :- ParentOf(g, p), ParentOf(p, c)`. -/
def c1wRule : Rule :=
  ⟨⟨"GrandparentOf", .var ⟨"g", none⟩, .var ⟨"c", none⟩⟩,
   [⟨"ParentOf", .var ⟨"g", none⟩, .var ⟨"p", none⟩⟩,
    ⟨"ParentOf", .var ⟨"p", none⟩, .var ⟨"c", none⟩⟩]⟩

/-- C1 witness data: the query pattern `GrandparentOf(?a, ?b)`. -/
def c1wQuery : Pattern := ⟨"GrandparentOf", .var ⟨"a", none⟩, .var ⟨"b", none⟩⟩

/-- C1 witness: the derivable grandparent fact is returned by
`_get_facts_for_pattern` in the concrete scenario. -/
theorem c1_witness :
    memFact ⟨"GrandparentOf", .obj 1, .obj 3⟩
      (getFactsForPattern c1wIsInf (fun _ _ => true) c1wStore [c1wRule] c1wQuery)
      = true := by
  have hder : Derives ([c1wRule].filter (fun r => r.head.ftype == c1wQuery.ftype))
      (storedFactList c1wStore) ⟨"GrandparentOf", .obj 1, .obj 3⟩ := by
    refine @Derives.step _ _ c1wRule
      [("g", Value.obj 1), ("p", Value.obj 2), ("c", Value.obj 3)]
      [⟨"ParentOf", .obj 1, .obj 2⟩, ⟨"ParentOf", .obj 2, .obj 3⟩] _
      (by decide) ?_ ?_ (by decide) (by decide)
    · exact List.Forall₂.cons (by decide)
        (List.Forall₂.cons (by decide) List.Forall₂.nil)
    · intro f hf
      rcases List.mem_cons.mp hf with h | h
      · rw [h]
        exact Derives.base (by decide)
      · rcases List.mem_cons.mp h with h2 | h2
        · rw [h2]
          exact Derives.base (by decide)
        · simp at h2
  exact c1_rule_engine_completeness_amended c1wIsInf (fun _ _ => true) c1wStore
    [c1wRule] c1wQuery (by decide) (by decide) (by decide) (by decide)
    ⟨"GrandparentOf", .obj 1, .obj 3⟩ hder (by decide)

/-- C1 counterexample data: fact types `A` and `B` are inferred, `C` is
storable. -/
def c1xIsInf : String → Bool := fun t => t == "A" || t == "B"

/-- C1 counterexample data: `A(x, y) :- B(x, y)`. -/
def c1xRuleA : Rule :=
  ⟨⟨"A", .var ⟨"x", none⟩, .var ⟨"y", none⟩⟩,
   [⟨"B", .var ⟨"x", none⟩, .var ⟨"y", none⟩⟩]⟩

/-- C1 counterexample data: `B(x, y) :- C(x, y)`. -/
def c1xRuleB : Rule :=
  ⟨⟨"B", .var ⟨"x", none⟩, .var ⟨"y", none⟩⟩,
   [⟨"C", .var ⟨"x", none⟩, .var ⟨"y", none⟩⟩]⟩

/-- C1 counterexample data: the full registered rule set. -/
def c1xRules : List Rule := [c1xRuleA, c1xRuleB]

/-- C1 counterexample data: one stored `C` row. -/
def c1xStore : Store := [("C", 1, 2)]

/-- C1 counterexample data: the query pattern `A(?qx, ?qy)`. -/
def c1xQuery : Pattern := ⟨"A", .var ⟨"qx", none⟩, .var ⟨"qy", none⟩⟩

/-- C1 counterexample data: the rules the engine selects for the query (head
type equal to the requested type). -/
def c1xRelevant : List Rule :=
  c1xRules.filter fun r => r.head.ftype == c1xQuery.ftype

/-- C1 counterexample data: the engine's targeted forward-chaining run for the
query. -/
def c1xEngineRun : List Fact :=
  applyTargetedRules c1xRelevant
    (buildTargetedFactBase c1xIsInf (fun _ _ => true) c1xStore c1xRelevant c1xQuery)

/-- C1 counterexample: `A(1, 2)` is derivable from the stored facts plus all
registered rules (through the intermediate inferred type `B`), the query
pattern has the inferred flavor, the engine's forward-chaining run reaches its
fixpoint well before the cap — yet `_get_facts_for_pattern` misses the fact,
because it applies only the rules whose head type equals the requested type
and loads no facts for inferred-type body conditions. -/
theorem c1_counterexample :
    Derives c1xRules (storedFactList c1xStore) ⟨"A", .obj 1, .obj 2⟩ ∧
    (⟨"A", .obj 1, .obj 2⟩ : Fact).ftype = c1xQuery.ftype ∧
    c1xIsInf c1xQuery.ftype = true ∧
    onePass c1xRelevant c1xEngineRun = c1xEngineRun ∧
    memFact ⟨"A", .obj 1, .obj 2⟩
      (getFactsForPattern c1xIsInf (fun _ _ => true) c1xStore c1xRules c1xQuery)
      = false := by
  refine ⟨?_, rfl, by decide, by decide, by decide⟩
  have hB : Derives c1xRules (storedFactList c1xStore) ⟨"B", .obj 1, .obj 2⟩ := by
    refine @Derives.step _ _ c1xRuleB
      [("x", Value.obj 1), ("y", Value.obj 2)]
      [⟨"C", .obj 1, .obj 2⟩] _
      (by decide) ?_ ?_ (by decide) (by decide)
    · exact List.Forall₂.cons (by decide) List.Forall₂.nil
    · intro f hf
      rcases List.mem_cons.mp hf with h | h
      · rw [h]
        exact Derives.base (by decide)
      · simp at h
  refine @Derives.step _ _ c1xRuleA
    [("x", Value.obj 1), ("y", Value.obj 2)]
    [⟨"B", .obj 1, .obj 2⟩] _
    (by decide) ?_ ?_ (by decide) (by decide)
  · exact List.Forall₂.cons (by decide) List.Forall₂.nil
  · intro f hf
    rcases List.mem_cons.mp hf with h | h
    · rw [h]
      exact hB
    · simp at h

end DjangoDatalog
